import Mathlib

/-!  Verification development for the blog static-site generator.

    Strings of the Go program are modelled as lists of characters
    (`Str`).  Slash-separated relative paths are modelled as lists of
    segments (`List Str`); the functions below mirror the lexical
    path algebra of Go's `path/filepath` package (`Clean`, `Join`,
    `Dir`, `Rel`) on such segment lists, together with the program's
    own functions from `main.go`, `internal/markdown`,
    `internal/generator/page/...` and the styling package.  -/

abbrev Str : Type := List Char

/-- Convert a Lean string literal to the character-list model. -/
def strOf (s : String) : Str := s.toList

/-- The `..` path segment. -/
def upSeg : Str := strOf ("..")

/-- The `.` path segment. -/
def dotSeg : Str := strOf (".")

/-- The `../` string prefix used by the Go code to detect upward links. -/
def upSlash : Str := strOf ("../")

/-- The `.md` source extension. -/
def mdExt : Str := strOf (".md")

/-- The `.html` output extension. -/
def htmlExt : Str := strOf (".html")

/-- One step of Go's `filepath.Clean` over a reversed accumulator of
    already-processed segments: empty and `.` segments are dropped, `..`
    cancels a previous plain segment and is kept when there is none. -/
def cleanStep (acc : List Str) (seg : Str) : List Str :=
  if seg = [] ∨ seg = dotSeg then acc
  else if seg = upSeg then
    match acc with
    | [] => [upSeg]
    | top :: rest => if top = upSeg then upSeg :: top :: rest else rest
  else seg :: acc

/-- Go's `filepath.Clean` on a relative slash-separated path, at the
    segment level.  The empty list plays the role of `"."`. -/
def cleanSegs (p : List Str) : List Str :=
  (p.foldl cleanStep []).reverse

/-- Go's `filepath.Join` of two relative paths (append, then `Clean`). -/
def joinSegs (a b : List Str) : List Str :=
  cleanSegs (a ++ b)

/-- Go's `filepath.Dir` of a relative path: everything but the last
    segment, cleaned (`Dir "x" = "."`, i.e. `[]`). -/
def dirSegs (p : List Str) : List Str :=
  cleanSegs p.dropLast

/-- Core of Go's `filepath.Rel` on two already-cleaned relative paths:
    strip the common segment prefix, then climb with `..` segments.
    `none` models the error Go returns when the remaining base starts
    with `..` (the caller would need the working directory). -/
def relAux : List Str → List Str → Option (List Str)
  | [], t => some t
  | x :: b, [] =>
    if x = upSeg then none else some (List.replicate (b.length + 1) upSeg)
  | x :: b, y :: t =>
    if x = y then relAux b t
    else if x = upSeg then none
    else some (List.replicate (b.length + 1) upSeg ++ y :: t)

/-- Go's `filepath.Rel` (lexical, relative paths): cleans both sides
    first, as the Go implementation does. -/
def relSegs (base targ : List Str) : Option (List Str) :=
  relAux (cleanSegs base) (cleanSegs targ)

/-- Split a character string at `/` into its segments
    (Go's path splitting; empty segments are preserved, as in Go,
    and later dropped by `Clean`). -/
def splitAux (cur : Str) : Str → List Str
  | [] => [cur.reverse]
  | c :: rest => if c = '/' then cur.reverse :: splitAux [] rest else splitAux (c :: cur) rest

/-- Segments of a slash-separated string. -/
def splitSlash (s : Str) : List Str := splitAux [] s

/-- Join segments with `/` (inverse of `splitSlash` on slash-free
    segments). -/
def joinSlash : List Str → Str
  | [] => []
  | [x] => x
  | x :: y :: rest => x ++ '/' :: joinSlash (y :: rest)

/-- Render a cleaned segment list the way Go renders it: the empty
    path is the string `"."`. -/
def pathToString (p : List Str) : Str :=
  if p = [] then dotSeg else joinSlash p

/-- A plain path segment: non-empty, not `.`, not `..`, slash-free.
    Segments of well-formed source-relative paths are plain. -/
def plainSeg (s : Str) : Prop :=
  s ≠ [] ∧ s ≠ dotSeg ∧ s ≠ upSeg ∧ '/' ∉ s

instance (s : Str) : Decidable (plainSeg s) := by
  unfold plainSeg; infer_instance

/-- All segments of a path are plain. -/
def plainList (p : List Str) : Prop := ∀ s ∈ p, plainSeg s

instance (p : List Str) : Decidable (plainList p) := by
  unfold plainList; infer_instance

/-- A well-formed source-relative path: non-empty and made of plain
    segments. -/
def wfSrc (p : List Str) : Prop := p ≠ [] ∧ plainList p

instance (p : List Str) : Decidable (wfSrc p) := by
  unfold wfSrc; infer_instance

/-- Whether the final segment of a path carries the `.md` extension. -/
def endsMd (p : List Str) : Bool :=
  match p.getLast? with
  | none => false
  | some x => mdExt.isSuffixOf x

/-- Go's `strings.TrimSuffix(s, ".md") + ".html"`, applied to one
    segment (the `.md` suffix of a whole path is always a suffix of its
    last segment, since `.md` contains no slash). -/
def toHtml (s : Str) : Str :=
  if mdExt.isSuffixOf s then s.take (s.length - 3) ++ htmlExt else s ++ htmlExt

/-- Map a function over the last segment of a path. -/
def mapLast (f : Str → Str) : List Str → List Str
  | [] => []
  | [x] => [f x]
  | x :: y :: rest => x :: mapLast f (y :: rest)

/-- Path Resolver of `main.go` (`resolveOutputPath`), at the segment
    level.  The string tests `relPath == "home.md"`,
    `relPath == "posts/index.md"` and
    `strings.HasPrefix(relPath, "posts/")` become the corresponding
    segment-list tests; `HasPrefix p "posts/"` holds exactly when the
    first segment is `posts` and another segment follows. -/
def resolveOutputPath (p : List Str) : List Str :=
  if p = [strOf ("home.md")] then [strOf ("index.html")]
  else if p = [strOf ("posts"), strOf ("index.md")] then [strOf ("posts"), strOf ("index.html")]
  else if p.head? = some (strOf ("posts")) ∧ 2 ≤ p.length then strOf ("post") :: mapLast toHtml p.tail
  else mapLast toHtml p

/-- Path Resolver of `internal/markdown/links.go`
    (`markdown.ResolveOutputPath`): replace the `.md` extension with
    `.html`, preserving the directory structure verbatim. -/
def mdResolveOutputPath (p : List Str) : List Str :=
  mapLast toHtml p

/-- Body of the `ReplaceAllStringFunc` callback shared by
    `main.go convertMdLinksToHtml` and
    `markdown.ConvertMdLinksToHtml` (they differ only in the output
    path resolver `resolve` they consult): resolve the target's
    source-relative path (climbing one directory when the link starts
    with `../`), resolve its output path, and take the lexical
    relative path from the source's output directory.  The discarded
    `filepath.Rel` error is modelled by `Option.getD []`. -/
def rewriteLinkCore (resolve : List Str → List Str) (sourceRelPath linkPath : Str) : Str :=
  let sourceDir := dirSegs (splitSlash sourceRelPath)
  let sourceOutputDir := dirSegs (resolve (splitSlash sourceRelPath))
  let targetRelPath :=
    if upSlash.isPrefixOf linkPath then
      joinSegs (dirSegs sourceDir) (splitSlash (linkPath.drop 3))
    else
      joinSegs sourceDir (splitSlash linkPath)
  let targetRelPath := cleanSegs targetRelPath
  let targetOutputPath := resolve targetRelPath
  let relLink := (relSegs sourceOutputDir targetOutputPath).getD []
  pathToString relLink

/-- Per-link rewrite of `main.go convertMdLinksToHtml`. -/
def rewriteLinkMain (sourceRelPath linkPath : Str) : Str :=
  rewriteLinkCore resolveOutputPath sourceRelPath linkPath

/-- Per-link rewrite of `markdown.ConvertMdLinksToHtml`
    (`internal/markdown/links.go`). -/
def rewriteLinkMd (sourceRelPath linkPath : Str) : Str :=
  rewriteLinkCore mdResolveOutputPath sourceRelPath linkPath

/-- Split a string at the first occurrence of a character; returns the
    part before and the part after the occurrence. -/
def splitAtChar (c : Char) : Str → Option (Str × Str)
  | [] => none
  | x :: rest =>
    if x = c then some ([], rest)
    else (splitAtChar c rest).map (fun pr => (x :: pr.1, pr.2))

/-- The characters of the regular expression's fixed part. -/
def hrefOpen : Str := strOf ("href=\x22")

/-- Scanner modelling the regular-expression replacement
    `href="([^"]*\.md)"` → callback, shared by both link converters:
    at each position, a `href="` opening followed by a quote-free
    target ending in `.md` and a closing quote is replaced through
    `rw`, and scanning resumes after the closing quote; everything
    else is copied unchanged (leftmost, non-overlapping — Go regexp
    semantics for this pattern). -/
def convertLinksScan (rw : Str → Str) : Str → Str
  | [] => []
  | c :: rest =>
    if hrefOpen.isPrefixOf (c :: rest) then
      match h : splitAtChar '\x22' ((c :: rest).drop 6) with
      | some (link, after) =>
        if mdExt.isSuffixOf link then
          hrefOpen ++ rw link ++ '\x22' :: convertLinksScan rw after
        else c :: convertLinksScan rw rest
      | none => c :: convertLinksScan rw rest
    else c :: convertLinksScan rw rest
  termination_by s => s.length
  decreasing_by
  · have key : ∀ (l a b : Str), splitAtChar '\x22' l = some (a, b) → b.length < l.length := by
      intro l
      induction l with
      | nil => intro a b hh; simp [splitAtChar] at hh
      | cons x rest ih =>
        intro a b hh
        by_cases hx : x = '\x22'
        · simp [splitAtChar, hx] at hh
          obtain ⟨h1, h2⟩ := hh
          subst h2
          simp
        · simp only [splitAtChar, if_neg hx, Option.map_eq_some'] at hh
          obtain ⟨pr, hpr, heq⟩ := hh
          have := ih pr.1 pr.2 hpr
          cases heq
          simp only [List.length_cons]
          omega
    have hlen := key _ _ _ h
    simp only [List.length_drop, List.length_cons] at hlen ⊢
    omega
  · simp
  · simp
  · simp

/-- `main.go convertMdLinksToHtml`. -/
def convertMdLinksToHtml (html sourceRelPath : Str) : Str :=
  convertLinksScan (rewriteLinkMain sourceRelPath) html

/-- `markdown.ConvertMdLinksToHtml` from `internal/markdown/links.go`. -/
def mdConvertMdLinksToHtml (html sourceRelPath : Str) : Str :=
  convertLinksScan (rewriteLinkMd sourceRelPath) html

/-- Count and strip the leading `../` occurrences of a string
    (the `for strings.HasPrefix(remaining, "../")` loop of
    `markdown.ConvertAssetPaths`; a string has the `../` prefix
    exactly when it has the form `'.' :: '.' :: '/' :: rest`, and
    `TrimPrefix` then drops those three characters). -/
def stripUps : Str → Nat × Str
  | '.' :: '.' :: '/' :: rest =>
    let pr := stripUps rest
    (pr.1 + 1, pr.2)
  | s => (0, s)

/-- Number of leading `../` segments of a string. -/
def countLeadingUp (s : Str) : Nat := (stripUps s).1

/-- The `targetDir = filepath.Dir(targetDir)` loop of
    `markdown.ConvertAssetPaths`, run `n` times. -/
def upDirs : Nat → List Str → List Str
  | 0, d => d
  | n + 1, d => upDirs n (dirSegs d)

/-- Go's `strings.TrimPrefix(p, "content/")` on a cleaned relative
    path: drops a leading `content` segment when another segment
    follows. -/
def trimContentRoot (p : List Str) : List Str :=
  if p.head? = some (strOf ("content")) ∧ 2 ≤ p.length then p.tail else p

/-- Go's `strings.CutPrefix(p, "../")` on a cleaned relative path:
    drops one leading `..` segment when another segment follows. -/
def trimLeadUp (p : List Str) : List Str :=
  if p.head? = some upSeg ∧ 2 ≤ p.length then p.tail else p

/-- Body of the `ReplaceAllStringFunc` callback of
    `markdown.ConvertAssetPaths`: absolute (`/`) and external
    (`http://`, `https://`) sources and sources without upward `../`
    traversal are returned unchanged; otherwise the asset's path is
    re-resolved from the output directory, stripping a `content/`
    root prefix. -/
def rewriteAsset (sourceRelPath src : Str) : Str :=
  if (strOf ("http://")).isPrefixOf src ∨ (strOf ("https://")).isPrefixOf src
      ∨ (strOf ("/")).isPrefixOf src then src
  else
    let pr := stripUps src
    if pr.1 = 0 then src
    else
      let sourceDir := dirSegs (splitSlash sourceRelPath)
      let sourceOutputDir := dirSegs (mdResolveOutputPath (splitSlash sourceRelPath))
      let targetDir := upDirs pr.1 sourceDir
      let targetPath := cleanSegs (joinSegs targetDir (splitSlash pr.2))
      let targetPath := trimLeadUp (trimContentRoot targetPath)
      let relPath := (relSegs sourceOutputDir targetPath).getD []
      pathToString relPath

/-- The fixed parts of the `img` regular expression
    `(<img[^>]+src=")([^"]+)(")`. -/
def imgOpen : Str := strOf ("<img")

/-- The `src="` attribute opening. -/
def srcOpen : Str := strOf ("src=\x22")

/-- Find the match of `[^>]+src="([^"]+)"` inside an `img` tag,
    starting right after `<img`.  Go's greedy `[^>]+` selects the
    last `src="` (within the `>`-free region) that is followed by a
    non-empty quote-terminated value, so later candidates are
    preferred.  Returns (attribute text, src value, rest after the
    closing quote). -/
def imgScanAux (pre : Str) : Str → Option (Str × Str × Str)
  | [] => none
  | c :: rest =>
    if c = '>' then none
    else
      match imgScanAux (c :: pre) rest with
      | some r => some r
      | none =>
        if pre ≠ [] ∧ srcOpen.isPrefixOf (c :: rest) then
          match splitAtChar '\x22' ((c :: rest).drop 5) with
          | some (content, after) =>
            if content ≠ [] then some (pre.reverse, content, after) else none
          | none => none
        else none

/-- Scanner modelling the regular-expression replacement of
    `markdown.ConvertAssetPaths` over the whole markup. -/
def convertAssetsScan (rw : Str → Str) : Str → Str
  | [] => []
  | c :: rest =>
    if imgOpen.isPrefixOf (c :: rest) then
      match h : imgScanAux [] ((c :: rest).drop 4) with
      | some (mid, content, after) =>
        imgOpen ++ mid ++ srcOpen ++ rw content ++ '\x22' :: convertAssetsScan rw after
      | none => c :: convertAssetsScan rw rest
    else c :: convertAssetsScan rw rest
  termination_by s => s.length
  decreasing_by
  · have key : ∀ (l : Str) (pre : Str) (r : Str × Str × Str),
        imgScanAux pre l = some r → r.2.2.length < l.length := by
      intro l
      induction l with
      | nil => intro pre r hh; simp [imgScanAux] at hh
      | cons x rest ih =>
        intro pre r hh
        by_cases hx : x = '>'
        · simp [imgScanAux, hx] at hh
        · simp only [imgScanAux, if_neg hx] at hh
          cases hdeep : imgScanAux (x :: pre) rest with
          | some r2 =>
            rw [hdeep] at hh
            have := ih (x :: pre) r2 hdeep
            cases hh
            simp only [List.length_cons]
            omega
          | none =>
            rw [hdeep] at hh
            by_cases hc : pre ≠ [] ∧ srcOpen.isPrefixOf (x :: rest)
            · simp only [if_pos hc] at hh
              cases hsp : splitAtChar '\x22' ((x :: rest).drop 5) with
              | some pr2 =>
                rw [hsp] at hh
                have hlen2 : ∀ (l2 a2 b2 : Str), splitAtChar '\x22' l2 = some (a2, b2) →
                    b2.length < l2.length := by
                  intro l2
                  induction l2 with
                  | nil => intro a2 b2 hhh; simp [splitAtChar] at hhh
                  | cons x2 rest2 ih2 =>
                    intro a2 b2 hhh
                    by_cases hx2 : x2 = '\x22'
                    · simp [splitAtChar, hx2] at hhh
                      obtain ⟨h1, h2⟩ := hhh
                      subst h2
                      simp
                    · simp only [splitAtChar, if_neg hx2, Option.map_eq_some'] at hhh
                      obtain ⟨pr3, hpr3, heq3⟩ := hhh
                      have := ih2 pr3.1 pr3.2 hpr3
                      cases heq3
                      simp only [List.length_cons]
                      omega
                have := hlen2 _ _ _ hsp
                by_cases hce : pr2.1 ≠ []
                · simp only [if_pos hce] at hh
                  cases hh
                  simp only [List.length_drop, List.length_cons] at this ⊢
                  omega
                · simp only [if_neg hce] at hh
                  cases hh
              | none =>
                rw [hsp] at hh
                cases hh
            · simp only [if_neg hc] at hh
              cases hh
    have hlen := key _ _ _ h
    simp only [List.length_drop, List.length_cons] at hlen ⊢
    omega
  · simp
  · simp

/-- `markdown.ConvertAssetPaths` (asset reference rewriting). -/
def convertAssetPaths (html sourceRelPath : Str) : Str :=
  convertAssetsScan (rewriteAsset sourceRelPath) html

/-- Whether the link regular expression `href="([^"]*\.md)"` matches
    anywhere in the markup (the markup contains a cross-document
    reference with a `.md`-suffixed target). -/
def hasMdHref : Str → Bool
  | [] => false
  | c :: rest =>
    (if hrefOpen.isPrefixOf (c :: rest) then
      match splitAtChar '\x22' ((c :: rest).drop 6) with
      | some (link, _) => mdExt.isSuffixOf link
      | none => false
     else false) || hasMdHref rest

/-- The skip conditions of `markdown.ConvertAssetPaths`' callback: an
    asset source is left untouched when it is external, absolute, or
    free of upward `../` traversal. -/
def assetSkip (src : Str) : Bool :=
  (strOf ("http://")).isPrefixOf src || (strOf ("https://")).isPrefixOf src
    || (strOf ("/")).isPrefixOf src || (stripUps src).1 = 0

/-- Whether every `img src` value the asset regular expression can
    match in the markup (at any position) satisfies the skip
    conditions. -/
def allImgSrcSkip : Str → Bool
  | [] => true
  | c :: rest =>
    (if imgOpen.isPrefixOf (c :: rest) then
      match imgScanAux [] ((c :: rest).drop 4) with
      | some (_, content, _) => assetSkip content
      | none => true
     else true) && allImgSrcSkip rest

/-- Go's `strings.Repeat`. -/
def repeatStr : Nat → Str → Str
  | 0, _ => []
  | n + 1, s => s ++ repeatStr n s

/-- Go's `strings.Count` for a single-character substring. -/
def countChar (c : Char) (s : Str) : Nat := (s.filter (fun x => x = c)).length

/-- The climb-to-root prefix of the Navigation Builder
    (`navigation.relativePrefix` in
    `internal/generator/page/substitution/navigation/substituer.go`). -/
def relativePrefixStr (currentSection : Str) : Str :=
  if currentSection = [] then []
  else repeatStr (countChar '/' currentSection + 1) upSlash

/-- Depth of a current-section path in the sense of the
    specification: the number of slash-separated segments, zero for
    the root (empty) section. -/
def depthOf (cur : Str) : Nat :=
  if cur = [] then 0 else (splitSlash cur).length

/-- The home entry's href (`prefix + "index.html"`). -/
def homeHref (pfx : Str) : Str := pfx ++ strOf ("index.html")

/-- A section entry's href (`prefix + section + "/index.html"`). -/
def sectionHref (pfx sec : Str) : Str := pfx ++ sec ++ strOf ("/index.html")

/-- All hrefs appearing in the generated navigation fragment, home
    entry first. -/
def navHrefs (sections : List Str) (currentSection : Str) : List Str :=
  homeHref (relativePrefixStr currentSection)
    :: sections.map (fun s => sectionHref (relativePrefixStr currentSection) s)

/-- Go's `strings.ToUpper(s[:1]) + s[1:]`.  `none` models the panic
    (slice bounds out of range) the Go expression raises on an empty
    string. -/
def capitalizeFirst (s : Str) : Option Str :=
  match s with
  | [] => none
  | c :: rest => some (c.toUpper :: rest)

/-- Fixed markup pieces of the generated navigation links. -/
def aOpenHref : Str := strOf ("<a href=\x22")

/-- Attribute part between the href value and the label. -/
def aMid : Str := strOf ("\x22 class=\x22hover:underline\x22>")

/-- Closing tag of a navigation link. -/
def aClose : Str := strOf ("</a>")

/-- The anchor elements of the navigation fragment, in order.  `none`
    models the panic on an empty section name. -/
def navLinks (sections : List Str) (currentSection : Str) : Option (List Str) :=
  let pfx := relativePrefixStr currentSection
  let home := aOpenHref ++ homeHref pfx ++ aMid ++ strOf ("Accueil") ++ aClose
  (sections.mapM (fun s =>
      (capitalizeFirst s).map (fun dn => aOpenHref ++ sectionHref pfx s ++ aMid ++ dn ++ aClose))).map
    (fun links => home :: links)

/-- Join with a separator (Go's `strings.Join`). -/
def joinWith (sep : Str) : List Str → Str
  | [] => []
  | [x] => x
  | x :: y :: rest => x ++ sep ++ joinWith sep (y :: rest)

/-- The Navigation Builder (`navigation.Substituter.Resolve`).  `none`
    models the panic on an empty configured section name. -/
def navigationResolve (sections : List Str) (currentSection : Str) : Option Str :=
  (navLinks sections currentSection).map (fun links =>
    strOf ("<nav class=\x22flex gap-4\x22>") ++ joinWith (strOf ("\n    ")) links ++ strOf ("</nav>"))

/-- Split a string at the first occurrence of a pattern (Go's
    `strings.Index`-style search); returns the part before the match
    and the part after it. -/
def findSub (pat : Str) : Str → Option (Str × Str)
  | [] => if pat = [] then some ([], []) else none
  | c :: rest =>
    if pat.isPrefixOf (c :: rest) then some ([], (c :: rest).drop pat.length)
    else (findSub pat rest).map (fun pr => (c :: pr.1, pr.2))

/-- Go's `strings.Contains`. -/
def containsSub (s pat : Str) : Bool := (findSub pat s).isSome

/-- Try to match the navigation-block regular expression
    `(?s)<nav[^>]*>(.*?)</nav>` at the start of the string, returning
    the (lazy, i.e. shortest) captured content. -/
def tryNavAt (s : Str) : Option Str :=
  if (strOf ("<nav")).isPrefixOf s then
    match splitAtChar '>' (s.drop 4) with
    | some (_, r2) =>
      match findSub (strOf ("</nav>")) r2 with
      | some (content, _) => some content
      | none => none
    | none => none
  else none

/-- Leftmost match of the navigation-block regular expression. -/
def findNavContent : Str → Option Str
  | [] => none
  | c :: rest =>
    match tryNavAt (c :: rest) with
    | some nc => some nc
    | none => findNavContent rest

/-- Try to match `href="(\.\./)*index\.html"` at the start of the
    string. -/
def tryHomeAt (s : Str) : Bool :=
  if hrefOpen.isPrefixOf s then
    (strOf ("index.html\x22")).isPrefixOf (stripUps (s.drop 6)).2
  else false

/-- Whether the home-href regular expression matches anywhere. -/
def hasHomeHref : Str → Bool
  | [] => false
  | c :: rest => tryHomeAt (c :: rest) || hasHomeHref rest

/-- Section loop of the Navigation Validator
    (`internal/generator/page/validation/navigation/validator.go`).
    `none` models the panic of `section[:1]` on an empty section
    name; otherwise the accumulated error messages are returned.
    The `%q` quoting of the Go messages is elided. -/
def navValidateLoop : List Str → Str → Str → List Str → Option (List Str)
  | [], _, _, errs => some errs
  | sec :: rest, htmlPath, navContent, errs =>
    let errs := errs ++
      (if containsSub navContent (sectionHref [] sec) then []
       else [htmlPath ++ strOf (": navigation missing link to section ") ++ sec])
    match capitalizeFirst sec with
    | none => none
    | some dn =>
      let errs := errs ++
        (if containsSub navContent dn then []
         else [htmlPath ++ strOf (": navigation missing display name ") ++ dn])
      navValidateLoop rest htmlPath navContent errs

/-- The Navigation Validator (`navigation.Validator.Validate`).  When
    no `nav` element is present the single missing-nav error is
    returned at once (before the section loop, hence before any
    possible panic). -/
def navValidate (sections : List Str) (htmlPath content : Str) : Option (List Str) :=
  match findNavContent content with
  | none => some [htmlPath ++ strOf (": missing <nav> element")]
  | some navContent =>
    let errs :=
      (if containsSub navContent (strOf ("Accueil")) then []
       else [htmlPath ++ strOf (": navigation missing home link (Accueil)")]) ++
      (if hasHomeHref navContent then []
       else [htmlPath ++ strOf (": navigation missing home href to index.html")])
    navValidateLoop sections htmlPath navContent errs

/-- Go's `strings.ReplaceAll` for a non-empty pattern: leftmost,
    non-overlapping occurrences are replaced, scanning resumes after
    each replaced occurrence.  (For the empty pattern Go inserts the
    replacement between all characters; the program only ever uses
    the fixed non-empty placeholder tokens.) -/
def replaceAll (s pat rep : Str) : Str :=
  match s with
  | [] => []
  | c :: rest =>
    if h : pat ≠ [] ∧ pat.isPrefixOf (c :: rest) then
      rep ++ replaceAll ((c :: rest).drop pat.length) pat rep
    else c :: replaceAll rest pat rep
  termination_by s.length
  decreasing_by
  · have : 1 ≤ pat.length := by
      cases hp : pat with
      | nil => exact absurd hp h.1
      | cons a b => simp
    simp only [List.length_drop, List.length_cons]
    omega
  · simp

/-- A placeholder substituter
    (`internal/generator/page/substitution`'s `Substituter`
    interface): a placeholder token and a fallible resolver. -/
structure Substituter where
  placeholder : Str
  resolve : Str → Except Str Str

/-- The `title` placeholder token. -/
def titlePlaceholder : Str := strOf ("\x7b\x7btitle\x7d\x7d")

/-- The `content` placeholder token. -/
def contentPlaceholder : Str := strOf ("\x7b\x7bcontent\x7d\x7d")

/-- Try to match the title regular expression
    `<h1[^>]*>([^<]+)</h1>` at the start of the string. -/
def tryH1At (s : Str) : Option Str :=
  if (strOf ("<h1")).isPrefixOf s then
    match splitAtChar '>' (s.drop 3) with
    | some (_, r2) =>
      let cap := r2.takeWhile (fun x => x ≠ '<')
      if cap ≠ [] ∧ (strOf ("</h1>")).isPrefixOf (r2.drop cap.length) then some cap
      else none
    | none => none
  else none

/-- Leftmost match of the title regular expression. -/
def findH1 : Str → Option Str
  | [] => none
  | c :: rest =>
    match tryH1At (c :: rest) with
    | some t => some t
    | none => findH1 rest

/-- `title.Substituter.Resolve`
    (`internal/generator/page/substitution/title/substituer.go`). -/
def titleResolve (content : Str) : Except Str Str :=
  match findH1 content with
  | some t => Except.ok t
  | none => Except.error (strOf ("Could not find a page title"))

/-- The registered title substituter. -/
def titleSubstituter : Substituter := ⟨titlePlaceholder, titleResolve⟩

/-- `content.Substituter.Resolve`
    (`internal/generator/page/substitution/content/content.go`):
    rewrites links and asset paths with an empty source path; it
    never fails. -/
def contentResolve (htmlContent : Str) : Except Str Str :=
  Except.ok (convertAssetPaths (mdConvertMdLinksToHtml htmlContent []) [])

/-- The registered content substituter. -/
def contentSubstituter : Substituter := ⟨contentPlaceholder, contentResolve⟩

/-- Error prefix added by `Registry.Apply` when a resolver fails. -/
def errPre : Str := strOf ("failed to resolve substitution: ")

/-- `substitution.Registry.Apply`
    (`internal/generator/page/substitution/registry.go`): for each
    registered substituter in order, resolve it once (a failure
    aborts with a wrapped error) and replace all occurrences of its
    placeholder in the accumulated template. -/
def registryApply (subs : List Substituter) (template content : Str) : Except Str Str :=
  match subs with
  | [] => Except.ok template
  | s :: rest =>
    match s.resolve content with
    | Except.error e => Except.error (errPre ++ e)
    | Except.ok resolution =>
      registryApply rest (replaceAll template s.placeholder resolution) content

/-- The default registry built by `substitution.NewRegistry`
    (content substituter first, then title substituter). -/
def defaultRegistry : List Substituter := [contentSubstituter, titleSubstituter]

/-- Go regexp's `\s` character class. -/
def isWs (c : Char) : Bool :=
  c = ' ' ∨ c = '\t' ∨ c = '\n' ∨ c = '\x0d' ∨ c = '\x0c'

/-- Backtracking step of `(?m)^#\s+(.+)$` when everything after the
    whitespace run is exhausted: give trailing whitespace back to the
    capture, choosing the largest split (greedy `\s+`) whose capture
    starts with a non-newline character. -/
def titleBacktrack (ws : Str) : Option Str :=
  match (List.range ws.length).reverse.find?
      (fun j => decide (1 ≤ j) && decide (ws.getD j '\n' ≠ '\n')) with
  | some j => some ((ws.drop j).takeWhile (fun x => x ≠ '\n'))
  | none => none

/-- Try to match `(?m)^#\s+(.+)$` at a line start. -/
def tryTitleAt : Str → Option Str
  | '#' :: r =>
    let ws := r.takeWhile isWs
    if ws = [] then none
    else
      match r.drop ws.length with
      | c2 :: r3 => some ((c2 :: r3).takeWhile (fun x => x ≠ '\n'))
      | [] => titleBacktrack ws
  | _ => none

/-- Scan the remaining lines (positions after each newline). -/
def scanLines : Str → Option Str
  | [] => none
  | c :: rest =>
    if c = '\n' then
      match tryTitleAt rest with
      | some t => some t
      | none => scanLines rest
    else scanLines rest

/-- `main.go extractTitle`: first match of `(?m)^#\s+(.+)$`, with the
    `"Untitled"` fallback when no top-level heading exists. -/
def extractTitle (source : Str) : Str :=
  match (match tryTitleAt source with
         | some t => some t
         | none => scanLines source) with
  | some t => t
  | none => strOf ("Untitled")

/-- `main.go`'s per-document data (`PageContext`). -/
structure PageContext where
  source : Str
  relPath : Str
  htmlContent : Str

/-- `main.go applySubstitutions`: the two registered substitutions
    (title from `extractTitle`, content from
    `convertMdLinksToHtml`), applied by `strings.Replace` with no
    error path. -/
def applySubstitutions (template : Str) (ctx : PageContext) : Str :=
  replaceAll
    (replaceAll template titlePlaceholder (extractTitle ctx.source))
    contentPlaceholder (convertMdLinksToHtml ctx.htmlContent ctx.relPath)

/-- `styling.Config` (from the styling package): the two key-class
    mappings, as association lists (Go map iteration order is
    unspecified; the list order stands in for it). -/
structure StyleConfig where
  elements : List (Str × Str)
  contexts : List (Str × List (Str × Str))

/-- The fixed list of recognized element types
    (`validElementTypesList`). -/
def validElementTypesList : List Str :=
  [strOf ("heading1"), strOf ("heading2"), strOf ("heading3"), strOf ("heading4"),
   strOf ("heading5"), strOf ("heading6"), strOf ("paragraph"), strOf ("link"),
   strOf ("image"), strOf ("codeblock"), strOf ("code"), strOf ("blockquote"),
   strOf ("list"), strOf ("listitem")]

/-- Membership in the `validElementTypes` map. -/
def validElementType (k : Str) : Bool := validElementTypesList.contains k

/-- The `elements.<key>` and `contexts.<name>.<key>` entries collected
    by `Config.Validate` for unrecognized keys. -/
def invalidKeysOf (c : StyleConfig) : List Str :=
  (c.elements.map Prod.fst).filterMap
    (fun k => if validElementType k then none else some (strOf ("elements.") ++ k))
  ++ (c.contexts.map (fun ctx =>
      (ctx.2.map Prod.fst).filterMap
        (fun k => if validElementType k then none
                  else some (strOf ("contexts.") ++ ctx.1 ++ strOf (".") ++ k)))).flatten

/-- `styling.Config.Validate`: `some message` is the returned error,
    `none` is a successful validation. -/
def configValidate (c : StyleConfig) : Option Str :=
  let invalidKeys := invalidKeysOf c
  if invalidKeys = [] then none
  else some (strOf ("invalid style config keys: ") ++ joinWith (strOf (", ")) invalidKeys
    ++ strOf (". Valid keys are: ") ++ joinWith (strOf (", ")) validElementTypesList)

/-- `styling.ParseConfig` after the external JSON unmarshalling step
    (file reading and JSON decoding are external collaborators): a
    decoded config is returned exactly when validation passes. -/
def parseConfig (decoded : StyleConfig) : Except Str StyleConfig :=
  match configValidate decoded with
  | some e => Except.error e
  | none => Except.ok decoded

/-- `validation.Registry.Validate`
    (`internal/generator/page/validation/registry.go`): run every
    registered validator, concatenating all returned errors in order;
    `none` models the `nil` return when no validator reported an
    error, `some errs` the `errors.Join` of all of them. -/
def registryValidate (validators : List (Str → Str → Str → List Str))
    (htmlPath buildDir content : Str) : Option (List Str) :=
  let errs := validators.foldl (fun acc v => acc ++ v htmlPath buildDir content) []
  if errs = [] then none else some errs

/-- The per-generator loop of `site.Generator.generatePages`
    (`internal/generator/site/generator.go`): every page generator is
    attempted (its `Generate()` outcome is modelled as `Option Str`,
    `some` being the error), and all failures are accumulated in
    order. -/
def generateLoop : List (Option Str) → List Str → List Str
  | [], errs => errs
  | r :: rest, errs =>
    match r with
    | some e => generateLoop rest (errs ++ [e])
    | none => generateLoop rest errs

/-- `site.Generator.generatePages`'s joining of the collected errors:
    `none` is the `nil` return, `some errs` the `errors.Join`. -/
def generatePages (results : List (Option Str)) : Option (List Str) :=
  let errs := generateLoop results []
  if errs = [] then none else some errs

/-!  Lemmas: the lexical path algebra.  -/

theorem cleanStep_nonspecial (acc : List Str) {s : Str}
    (h1 : s ≠ []) (h2 : s ≠ dotSeg) (h3 : s ≠ upSeg) :
    cleanStep acc s = s :: acc := by
  simp [cleanStep, h1, h2, h3]

theorem foldl_cleanStep_nonspecial :
    ∀ (l : List Str), (∀ s ∈ l, s ≠ [] ∧ s ≠ dotSeg ∧ s ≠ upSeg) →
      ∀ acc, l.foldl cleanStep acc = l.reverse ++ acc := by
  intro l
  induction l with
  | nil => simp
  | cons x xs ih =>
    intro h acc
    have hx := h x (by simp)
    simp only [List.foldl_cons, cleanStep_nonspecial acc hx.1 hx.2.1 hx.2.2]
    rw [ih (fun s hs => h s (by simp [hs]))]
    simp

theorem plainSeg_nonspecial {s : Str} (h : plainSeg s) :
    s ≠ [] ∧ s ≠ dotSeg ∧ s ≠ upSeg :=
  ⟨h.1, h.2.1, h.2.2.1⟩

theorem cleanSegs_plain {p : List Str} (h : plainList p) : cleanSegs p = p := by
  unfold cleanSegs
  rw [foldl_cleanStep_nonspecial p (fun s hs => plainSeg_nonspecial (h s hs)) []]
  simp

theorem plainList_sub {p q : List Str} (hsub : q ⊆ p) (h : plainList p) : plainList q :=
  fun s hs => h s (hsub hs)

theorem plainList_dropLast {p : List Str} (h : plainList p) : plainList p.dropLast :=
  plainList_sub (List.dropLast_prefix p).subset h

theorem dirSegs_plain {p : List Str} (h : plainList p) : dirSegs p = p.dropLast :=
  cleanSegs_plain (plainList_dropLast h)

theorem foldl_cleanStep_up_bottom :
    ∀ (l : List Str) (acc : List Str),
      ∃ acc', l.foldl cleanStep (acc ++ [upSeg]) = acc' ++ [upSeg] := by
  intro l
  induction l with
  | nil => intro acc; exact ⟨acc, rfl⟩
  | cons x xs ih =>
    intro acc
    simp only [List.foldl_cons]
    by_cases h1 : x = [] ∨ x = dotSeg
    · rw [show cleanStep (acc ++ [upSeg]) x = acc ++ [upSeg] from by simp [cleanStep, h1]]
      exact ih acc
    · by_cases h2 : x = upSeg
      · cases acc with
        | nil =>
          rw [show cleanStep ([] ++ [upSeg]) x = [upSeg] ++ [upSeg] from by
            subst h2; rfl]
          exact ih [upSeg]
        | cons a as =>
          by_cases h3 : a = upSeg
          · rw [show cleanStep ((a :: as) ++ [upSeg]) x = (upSeg :: a :: as) ++ [upSeg] from by
              subst h2
              simp only [cleanStep]
              rw [if_neg (by decide)]
              simp [h3]]
            exact ih _
          · rw [show cleanStep ((a :: as) ++ [upSeg]) x = as ++ [upSeg] from by
              subst h2
              simp only [cleanStep]
              rw [if_neg (by decide)]
              simp [h3]]
            exact ih as
      · rw [show cleanStep (acc ++ [upSeg]) x = (x :: acc) ++ [upSeg] from by
          simp [cleanStep, h1, h2]]
        exact ih _

theorem cleanSegs_up_cons (r : List Str) : ∃ t, cleanSegs (upSeg :: r) = upSeg :: t := by
  unfold cleanSegs
  simp only [List.foldl_cons]
  rw [show cleanStep [] upSeg = [] ++ [upSeg] from rfl]
  obtain ⟨acc', hacc⟩ := foldl_cleanStep_up_bottom r []
  rw [hacc]
  exact ⟨acc'.reverse, by simp⟩

theorem foldl_cleanStep_cancel :
    ∀ (d : List Str), (∀ s ∈ d, s ≠ [] ∧ s ≠ dotSeg ∧ s ≠ upSeg) →
      ∀ acc, (d ++ List.replicate d.length upSeg).foldl cleanStep acc = acc := by
  intro d
  induction d with
  | nil => simp
  | cons x xs ih =>
    intro h acc
    have hx := h x (by simp)
    rw [show (x :: xs) ++ List.replicate (x :: xs).length upSeg
        = x :: ((xs ++ List.replicate xs.length upSeg) ++ [upSeg]) from by
      simp [List.replicate_succ']]
    rw [List.foldl_cons, cleanStep_nonspecial acc hx.1 hx.2.1 hx.2.2]
    rw [List.foldl_append]
    rw [ih (fun s hs => h s (by simp [hs])) (x :: acc)]
    show cleanStep (x :: acc) upSeg = acc
    simp only [cleanStep]
    rw [if_neg (by decide)]
    simp [hx.2.2]

theorem relAux_spec :
    ∀ (b t : List Str), plainList b → plainList t →
      ∃ r, relAux b t = some r
        ∧ (∀ acc, (b ++ r).foldl cleanStep acc = t.foldl cleanStep acc)
        ∧ (∀ s ∈ r, s = upSeg ∨ s ∈ t) := by
  intro b
  induction b with
  | nil =>
    intro t _ _
    exact ⟨t, rfl, by simp, fun s hs => Or.inr hs⟩
  | cons x bs ih =>
    intro t hb ht
    have hx := hb x (by simp)
    have hxu : x ≠ upSeg := hx.2.2.1
    cases t with
    | nil =>
      refine ⟨List.replicate (bs.length + 1) upSeg, ?_, ?_, ?_⟩
      · simp [relAux, hxu]
      · intro acc
        have := foldl_cleanStep_cancel (x :: bs)
          (fun s hs => plainSeg_nonspecial (hb s hs)) acc
        simpa using this
      · intro s hs
        exact Or.inl (List.eq_of_mem_replicate hs)
    | cons y ts =>
      by_cases hxy : x = y
      · subst hxy
        obtain ⟨r, hr, hfold, hmem⟩ := ih ts
          (fun s hs => hb s (by simp [hs])) (fun s hs => ht s (by simp [hs]))
        refine ⟨r, ?_, ?_, ?_⟩
        · simp [relAux, hr]
        · intro acc
          simp only [List.cons_append, List.foldl_cons]
          exact hfold (cleanStep acc x)
        · intro s hs
          rcases hmem s hs with h | h
          · exact Or.inl h
          · exact Or.inr (by simp [h])
      · refine ⟨List.replicate (bs.length + 1) upSeg ++ y :: ts, ?_, ?_, ?_⟩
        · simp [relAux, hxy, hxu]
        · intro acc
          rw [show (x :: bs) ++ (List.replicate (bs.length + 1) upSeg ++ y :: ts)
              = ((x :: bs) ++ List.replicate (x :: bs).length upSeg) ++ (y :: ts) from by
            simp [List.append_assoc]]
          rw [List.foldl_append,
            foldl_cleanStep_cancel (x :: bs) (fun s hs => plainSeg_nonspecial (hb s hs)) acc]
        · intro s hs
          rcases List.mem_append.mp hs with h | h
          · exact Or.inl (List.eq_of_mem_replicate h)
          · exact Or.inr h

theorem relAux_clean {b t : List Str} (hb : plainList b) (ht : plainList t) :
    ∃ r, relAux b t = some r ∧ cleanSegs (b ++ r) = t ∧ (∀ s ∈ r, s = upSeg ∨ s ∈ t) := by
  obtain ⟨r, hr, hfold, hmem⟩ := relAux_spec b t hb ht
  refine ⟨r, hr, ?_, hmem⟩
  unfold cleanSegs
  rw [hfold []]
  have := cleanSegs_plain ht
  unfold cleanSegs at this
  exact this

theorem splitAux_no_slash :
    ∀ (x : Str), '/' ∉ x → ∀ acc, splitAux acc x = [acc.reverse ++ x] := by
  intro x
  induction x with
  | nil => intro _ acc; simp [splitAux]
  | cons c cs ih =>
    intro h acc
    have hc : c ≠ '/' := by intro hh; exact h (by simp [hh])
    simp only [splitAux, if_neg hc]
    rw [ih (fun hh => h (by simp [hh])) (c :: acc)]
    simp

theorem splitAux_append_slash :
    ∀ (x : Str), '/' ∉ x → ∀ (acc : Str) (t : Str),
      splitAux acc (x ++ '/' :: t) = (acc.reverse ++ x) :: splitAux [] t := by
  intro x
  induction x with
  | nil => intro _ acc t; simp [splitAux]
  | cons c cs ih =>
    intro h acc t
    have hc : c ≠ '/' := by intro hh; exact h (by simp [hh])
    simp only [List.cons_append, splitAux, if_neg hc, List.append_eq]
    rw [ih (fun hh => h (by simp [hh])) (c :: acc) t]
    simp

theorem splitSlash_joinSlash :
    ∀ (r : List Str), r ≠ [] → (∀ s ∈ r, s ≠ [] ∧ '/' ∉ s) →
      splitSlash (joinSlash r) = r := by
  intro r
  induction r with
  | nil => intro h; exact absurd rfl h
  | cons x rs ih =>
    intro _ h
    cases rs with
    | nil =>
      show splitAux [] (joinSlash [x]) = [x]
      rw [show joinSlash [x] = x from rfl, splitAux_no_slash x (h x (by simp)).2 []]
      simp
    | cons y rs' =>
      show splitAux [] (joinSlash (x :: y :: rs')) = x :: y :: rs'
      rw [show joinSlash (x :: y :: rs') = x ++ '/' :: joinSlash (y :: rs') from rfl]
      rw [splitAux_append_slash x (h x (by simp)).2 []]
      have := ih (by simp) (fun s hs => h s (by simp [hs]))
      unfold splitSlash at this
      rw [this]
      simp

theorem splitSlash_up_drop {link : Str} (h : upSlash.isPrefixOf link) :
    splitSlash link = upSeg :: splitSlash (link.drop 3) := by
  have hp : upSlash <+: link := (List.isPrefixOf_iff_prefix).mp h
  obtain ⟨rest, hrest⟩ := hp
  subst hrest
  show splitAux [] (upSlash ++ rest) = upSeg :: splitAux [] ((upSlash ++ rest).drop 3)
  rw [show upSlash ++ rest = '.' :: '.' :: '/' :: rest from rfl,
    show ('.' :: '.' :: '/' :: rest).drop 3 = rest from rfl]
  simp [splitAux, upSeg, strOf]

/-!  Lemmas: plainness is preserved by the output path resolvers.  -/

theorem toHtml_plain {s : Str} (h : plainSeg s) : plainSeg (toHtml s) := by
  have hlen : 5 ≤ (toHtml s).length := by
    have h5 : htmlExt.length = 5 := rfl
    unfold toHtml
    split <;> (rw [List.length_append, h5]; omega)
  refine ⟨?_, ?_, ?_, ?_⟩
  · intro heq
    rw [heq] at hlen
    exact absurd hlen (by decide)
  · intro heq
    rw [heq] at hlen
    exact absurd hlen (by decide)
  · intro heq
    rw [heq] at hlen
    exact absurd hlen (by decide)
  · intro hmem
    unfold toHtml at hmem
    split at hmem <;> rcases List.mem_append.mp hmem with hm | hm
    · exact h.2.2.2 (List.take_subset _ _ hm)
    · exact absurd hm (by decide)
    · exact h.2.2.2 hm
    · exact absurd hm (by decide)

theorem mapLast_plain : ∀ (p : List Str), plainList p → plainList (mapLast toHtml p) := by
  intro p
  induction p with
  | nil => intro _; simp [mapLast, plainList]
  | cons x xs ih =>
    intro h
    cases xs with
    | nil =>
      intro s hs
      simp only [mapLast, List.mem_singleton] at hs
      subst hs
      exact toHtml_plain (h x (by simp))
    | cons y rest =>
      intro s hs
      simp only [mapLast, List.mem_cons] at hs
      rcases hs with hs | hs
      · rw [hs]; exact h x (by simp)
      · exact ih (fun t ht => h t (List.mem_cons_of_mem _ ht)) s hs

theorem resolveOutputPath_plain {p : List Str} (h : plainList p) :
    plainList (resolveOutputPath p) := by
  unfold resolveOutputPath
  split
  · decide
  · split
    · decide
    · split
      · intro s hs
        rcases List.mem_cons.mp hs with hs | hs
        · subst hs; decide
        · exact mapLast_plain p.tail
            (plainList_sub (List.tail_subset p) h) s hs
      · exact mapLast_plain p h

theorem mdResolveOutputPath_plain {p : List Str} (h : plainList p) :
    plainList (mdResolveOutputPath p) :=
  mapLast_plain p h

/-!  Lemmas: the Reference Rewriter's target resolution and the
     relative-path round trip.  -/

theorem cleanSegs_append_dot (l : List Str) : cleanSegs (l ++ [dotSeg]) = cleanSegs l := by
  unfold cleanSegs
  rw [List.foldl_append]
  simp [cleanStep]

theorem codeTarget_eq {A B : List Str} {link : Str}
    (hA : wfSrc A) (hB : plainList B)
    (hden : cleanSegs (dirSegs A ++ splitSlash link) = B) :
    (if upSlash.isPrefixOf link
      then joinSegs (dirSegs (dirSegs A)) (splitSlash (link.drop 3))
      else joinSegs (dirSegs A) (splitSlash link)) = B := by
  have hplain := hA.2
  have hD : dirSegs A = A.dropLast := dirSegs_plain hplain
  by_cases hup : upSlash.isPrefixOf link
  · rw [if_pos hup]
    rw [splitSlash_up_drop hup] at hden
    rw [hD] at hden ⊢
    rw [dirSegs_plain (plainList_dropLast hplain)]
    rcases List.eq_nil_or_concat A.dropLast with hnil | ⟨d₀, x, hcat⟩
    · rw [hnil] at hden
      simp only [List.nil_append] at hden
      obtain ⟨t, ht⟩ := cleanSegs_up_cons (splitSlash (link.drop 3))
      rw [ht] at hden
      exfalso
      have := hB upSeg (by rw [← hden]; simp)
      exact this.2.2.1 rfl
    · rw [List.concat_eq_append] at hcat
      have hdp : plainList (d₀ ++ [x]) := by rw [← hcat]; exact plainList_dropLast hplain
      have hx : plainSeg x := hdp x (by simp)
      rw [hcat] at hden ⊢
      rw [show (d₀ ++ [x]).dropLast = d₀ from by simp]
      have key : ∀ acc, ((d₀ ++ [x]) ++ upSeg :: splitSlash (link.drop 3)).foldl cleanStep acc
          = (d₀ ++ splitSlash (link.drop 3)).foldl cleanStep acc := by
        intro acc
        rw [show (d₀ ++ [x]) ++ upSeg :: splitSlash (link.drop 3)
            = d₀ ++ (x :: upSeg :: splitSlash (link.drop 3)) from by simp]
        rw [List.foldl_append, List.foldl_append]
        simp only [List.foldl_cons]
        rw [cleanStep_nonspecial _ hx.1 hx.2.1 hx.2.2.1]
        rw [show cleanStep (x :: (d₀.foldl cleanStep acc)) upSeg = d₀.foldl cleanStep acc from by
          simp only [cleanStep]
          rw [if_neg (by decide)]
          simp [hx.2.2.1]]
      show cleanSegs (d₀ ++ splitSlash (link.drop 3)) = B
      unfold cleanSegs at hden ⊢
      rw [← key []]
      exact hden
  · rw [if_neg hup]
    exact hden

theorem rewriteLink_roundTrip (resolve : List Str → List Str)
    (hres : ∀ p, plainList p → plainList (resolve p))
    {A B : List Str} {link : Str} (hA : wfSrc A) (hB : wfSrc B)
    (hden : cleanSegs (dirSegs A ++ splitSlash link) = B) :
    joinSegs (dirSegs (resolve A)) (splitSlash (rewriteLinkCore resolve (joinSlash A) link))
      = resolve B := by
  obtain ⟨hAne, hAp⟩ := hA
  obtain ⟨hBne, hBp⟩ := hB
  have hsplitA : splitSlash (joinSlash A) = A :=
    splitSlash_joinSlash A hAne (fun s hs => ⟨(hAp s hs).1, (hAp s hs).2.2.2⟩)
  have htarget : (if upSlash.isPrefixOf link
      then joinSegs (dirSegs (dirSegs A)) (splitSlash (link.drop 3))
      else joinSegs (dirSegs A) (splitSlash link)) = B :=
    codeTarget_eq ⟨hAne, hAp⟩ hBp hden
  have hbaseP : plainList (dirSegs (resolve A)) := by
    rw [dirSegs_plain (hres A hAp)]
    exact plainList_dropLast (hres A hAp)
  have htpP : plainList (resolve B) := hres B hBp
  have hbc : cleanSegs (dirSegs (resolve A)) = dirSegs (resolve A) := cleanSegs_plain hbaseP
  have htc : cleanSegs (resolve B) = resolve B := cleanSegs_plain htpP
  obtain ⟨r, hr, hclean, hmem⟩ := relAux_clean hbaseP htpP
  have hrel : relSegs (dirSegs (resolve A)) (resolve B) = some r := by
    unfold relSegs
    rw [hbc, htc]
    exact hr
  have hrw : rewriteLinkCore resolve (joinSlash A) link = pathToString r := by
    unfold rewriteLinkCore
    simp only [hsplitA, htarget, cleanSegs_plain hBp, hrel, Option.getD_some]
  rw [hrw]
  by_cases hre : r = []
  · subst hre
    rw [show pathToString [] = dotSeg from rfl]
    rw [show splitSlash dotSeg = [dotSeg] from rfl]
    unfold joinSegs
    rw [cleanSegs_append_dot]
    simpa using hclean
  · rw [show pathToString r = joinSlash r from by simp [pathToString, hre]]
    rw [splitSlash_joinSlash r hre (fun s hs => ?_)]
    · exact hclean
    · rcases hmem s hs with h | h
      · subst h; exact ⟨by decide, by decide⟩
      · exact ⟨(htpP s h).1, (htpP s h).2.2.2⟩

/-!  Lemmas: the markup scanner on a single cross-document link.  -/

theorem splitAtChar_append :
    ∀ (link : Str), '\x22' ∉ link → ∀ t,
      splitAtChar '\x22' (link ++ '\x22' :: t) = some (link, t) := by
  intro link
  induction link with
  | nil => intro _ t; simp [splitAtChar]
  | cons c cs ih =>
    intro h t
    have hc : c ≠ '\x22' := fun hh => h (by simp [hh])
    simp only [List.cons_append, splitAtChar, if_neg hc, List.append_eq]
    rw [ih (fun hh => h (by simp [hh])) t]
    rfl

theorem convertLinksScan_nil (rw : Str → Str) : convertLinksScan rw [] = [] := by
  simp [convertLinksScan]

theorem convertLinksScan_single (rw : Str → Str) {link : Str}
    (hq : '\x22' ∉ link) (hmd : mdExt.isSuffixOf link = true) :
    convertLinksScan rw (hrefOpen ++ link ++ ['\x22']) = hrefOpen ++ rw link ++ ['\x22'] := by
  have hco : hrefOpen ++ link ++ ['\x22']
      = 'h' :: ('r' :: 'e' :: 'f' :: '=' :: '\x22' :: (link ++ ['\x22'])) := by
    simp [hrefOpen, strOf]
  rw [hco, convertLinksScan]
  have hpre : hrefOpen.isPrefixOf
      ('h' :: ('r' :: 'e' :: 'f' :: '=' :: '\x22' :: (link ++ ['\x22']))) = true := by
    rw [List.isPrefixOf_iff_prefix]
    exact ⟨link ++ ['\x22'], by simp [hrefOpen, strOf]⟩
  rw [if_pos hpre]
  have hdrop : ('h' :: ('r' :: 'e' :: 'f' :: '=' :: '\x22' :: (link ++ ['\x22']))).drop 6
      = link ++ '\x22' :: [] := by simp
  rw [hdrop] at *
  rw [splitAtChar_append link hq []]
  simp only [hmd, if_pos]
  rw [convertLinksScan_nil]

/-!  Helper lemmas about `mapLast`.  -/

theorem mapLast_append_singleton :
    ∀ (q : List Str) (b : Str), mapLast toHtml (q ++ [b]) = q ++ [toHtml b] := by
  intro q
  induction q with
  | nil => intro b; rfl
  | cons x q' ih =>
    intro b
    cases q' with
    | nil => rfl
    | cons y q'' =>
      show x :: mapLast toHtml ((y :: q'') ++ [b]) = x :: ((y :: q'') ++ [toHtml b])
      rw [ih b]

/-- C1 counterexample: the claim reads rule 3 as mapping any document
    nested under `posts/` to `post/(basename).html`; but for the
    deeper-nested `posts/deep/x.md` (whose basename is `x.md`) the
    code keeps the intermediate directory, producing
    `post/deep/x.html`, not `post/x.html`. -/
theorem c1_basename_counterexample :
    resolveOutputPath [strOf ("posts"), strOf ("deep"), strOf ("x.md")]
        = [strOf ("post"), strOf ("deep"), strOf ("x.html")]
      ∧ [strOf ("post"), strOf ("deep"), strOf ("x.html")] ≠ [strOf ("post"), strOf ("x.html")] := by
  decide

/-- C1 (amended): the Path Resolver of `main.go` maps `home.md` to
    `index.html`; maps `posts/index.md` to `posts/index.html`
    unchanged; maps any other document nested under `posts/` to
    `post/` followed by the remaining sub-path (not just the
    basename) with its `.md` suffix replaced by `.html`; and maps
    every other path to the same path with the `.md` suffix replaced
    by `.html`, preserving its full directory structure. -/
theorem c1_resolveOutputPath_rules :
    (resolveOutputPath [strOf ("home.md")] = [strOf ("index.html")])
    ∧ (resolveOutputPath [strOf ("posts"), strOf ("index.md")]
        = [strOf ("posts"), strOf ("index.html")])
    ∧ (∀ rest : List Str, rest ≠ [] →
        strOf ("posts") :: rest ≠ [strOf ("posts"), strOf ("index.md")] →
        resolveOutputPath (strOf ("posts") :: rest) = strOf ("post") :: mapLast toHtml rest)
    ∧ (∀ p : List Str, p ≠ [strOf ("home.md")] →
        p ≠ [strOf ("posts"), strOf ("index.md")] →
        ¬(p.head? = some (strOf ("posts")) ∧ 2 ≤ p.length) →
        resolveOutputPath p = mapLast toHtml p)
    ∧ (∀ (q : List Str) (b : Str), mapLast toHtml (q ++ [b]) = q ++ [toHtml b])
    ∧ (∀ b : Str, mdExt.isSuffixOf b = true →
        toHtml b = b.take (b.length - 3) ++ htmlExt) := by
  refine ⟨by decide, by decide, ?_, ?_, mapLast_append_singleton, ?_⟩
  · intro rest hne hni
    have h1 : strOf ("posts") :: rest ≠ [strOf ("home.md")] := by
      intro he
      injection he with ha hb
      exact absurd ha (by decide)
    have h2len : 2 ≤ (strOf ("posts") :: rest).length := by
      cases rest with
      | nil => exact absurd rfl hne
      | cons a b => simp [List.length_cons]
    unfold resolveOutputPath
    rw [if_neg h1, if_neg hni, if_pos ⟨rfl, h2len⟩]
    rfl
  · intro p h1 h2 h3
    unfold resolveOutputPath
    rw [if_neg h1, if_neg h2, if_neg h3]
  · intro b h
    unfold toHtml
    rw [if_pos h]

/-- C1 witness: the amended rules evaluated at `posts/hello.md` and
    `docs/guide.md`. -/
theorem c1_resolveOutputPath_rules_witness :
    resolveOutputPath (strOf ("posts") :: [strOf ("hello.md")])
        = strOf ("post") :: mapLast toHtml [strOf ("hello.md")]
      ∧ resolveOutputPath [strOf ("docs"), strOf ("guide.md")]
        = mapLast toHtml [strOf ("docs"), strOf ("guide.md")] :=
  ⟨c1_resolveOutputPath_rules.2.2.1 [strOf ("hello.md")] (by decide) (by decide),
   c1_resolveOutputPath_rules.2.2.2.1 [strOf ("docs"), strOf ("guide.md")]
     (by decide) (by decide) (by decide)⟩

/-- C2: round trip of the Reference Rewriter, for both the `main.go`
    variant and the `internal/markdown` variant.  For any documents
    `A`, `B` in the tree and any `.md` link in `A`'s markup whose
    target lexically denotes `B` (any nesting depth, any number of
    upward traversals), the produced href, joined to the directory of
    `A`'s resolved output path and cleaned, equals `B`'s resolved
    output path. -/
theorem c2_rewriter_roundTrip (A B : List Str) (link : Str)
    (hA : wfSrc A) (hB : wfSrc B)
    (hq : '\x22' ∉ link) (hmd : mdExt.isSuffixOf link = true)
    (hden : cleanSegs (dirSegs A ++ splitSlash link) = B) :
    (convertMdLinksToHtml (hrefOpen ++ link ++ ['\x22']) (joinSlash A)
        = hrefOpen ++ rewriteLinkMain (joinSlash A) link ++ ['\x22']
      ∧ joinSegs (dirSegs (resolveOutputPath A))
          (splitSlash (rewriteLinkMain (joinSlash A) link)) = resolveOutputPath B)
    ∧ (mdConvertMdLinksToHtml (hrefOpen ++ link ++ ['\x22']) (joinSlash A)
        = hrefOpen ++ rewriteLinkMd (joinSlash A) link ++ ['\x22']
      ∧ joinSegs (dirSegs (mdResolveOutputPath A))
          (splitSlash (rewriteLinkMd (joinSlash A) link)) = mdResolveOutputPath B) := by
  refine ⟨⟨?_, ?_⟩, ?_, ?_⟩
  · exact convertLinksScan_single _ hq hmd
  · exact rewriteLink_roundTrip resolveOutputPath
      (fun p hp => resolveOutputPath_plain hp) hA hB hden
  · exact convertLinksScan_single _ hq hmd
  · exact rewriteLink_roundTrip mdResolveOutputPath
      (fun p hp => mdResolveOutputPath_plain hp) hA hB hden

/-- C2 witness: the round trip at `A = posts/index.md`,
    `B = posts/hello.md`, link `hello.md`. -/
theorem c2_rewriter_roundTrip_witness :
    joinSegs (dirSegs (resolveOutputPath [strOf ("posts"), strOf ("index.md")]))
        (splitSlash (rewriteLinkMain
          (joinSlash [strOf ("posts"), strOf ("index.md")]) (strOf ("hello.md"))))
      = resolveOutputPath [strOf ("posts"), strOf ("hello.md")]
    ∧ joinSegs (dirSegs (mdResolveOutputPath [strOf ("posts"), strOf ("index.md")]))
        (splitSlash (rewriteLinkMd
          (joinSlash [strOf ("posts"), strOf ("index.md")]) (strOf ("hello.md"))))
      = mdResolveOutputPath [strOf ("posts"), strOf ("hello.md")] :=
  ⟨(c2_rewriter_roundTrip [strOf ("posts"), strOf ("index.md")]
      [strOf ("posts"), strOf ("hello.md")] (strOf ("hello.md"))
      (by decide) (by decide) (by decide) (by decide) (by decide)).1.2,
   (c2_rewriter_roundTrip [strOf ("posts"), strOf ("index.md")]
      [strOf ("posts"), strOf ("hello.md")] (strOf ("hello.md"))
      (by decide) (by decide) (by decide) (by decide) (by decide)).2.2⟩

/-- C3 counterexample: on `posts/hello.md` the `main.go` Path
    Resolver produces output directory `post` while the
    `internal/markdown` resolver used by the Reference Rewriter and
    the Navigation Builder's section href keep `posts` — the three
    cited components do not agree on one section-naming
    convention. -/
theorem c3_convention_counterexample :
    resolveOutputPath [strOf ("posts"), strOf ("hello.md")]
        = [strOf ("post"), strOf ("hello.html")]
      ∧ mdResolveOutputPath [strOf ("posts"), strOf ("hello.md")]
        = [strOf ("posts"), strOf ("hello.html")]
      ∧ sectionHref [] (strOf ("posts")) = strOf ("posts/index.html")
      ∧ (resolveOutputPath [strOf ("posts"), strOf ("hello.md")]).head?
        ≠ (mdResolveOutputPath [strOf ("posts"), strOf ("hello.md")]).head? := by
  decide

/-- C3 (amended): the repository carries two section-naming
    conventions.  `main.go`'s Path Resolver singularizes the section
    directory (`posts` to `post`) for non-index documents, while the
    `internal/markdown` resolver consulted by the Reference Rewriter
    and the Navigation Builder's hrefs keep the section name
    verbatim; the latter two agree with each other. -/
theorem c3_two_conventions :
    (∀ b : Str, b ≠ strOf ("index.md") →
        resolveOutputPath [strOf ("posts"), b] = [strOf ("post"), toHtml b])
    ∧ (∀ (sec : Str) (rest : List Str), rest ≠ [] →
        (mdResolveOutputPath (sec :: rest)).head? = some sec)
    ∧ (∀ (cur sec : Str),
        sectionHref (relativePrefixStr cur) sec
          = relativePrefixStr cur ++ sec ++ strOf ("/index.html")) := by
  refine ⟨?_, ?_, ?_⟩
  · intro b hb
    have h1 : [strOf ("posts"), b] ≠ [strOf ("home.md")] := by
      intro he
      injection he with ha _
      exact absurd ha (by decide)
    have h2 : [strOf ("posts"), b] ≠ [strOf ("posts"), strOf ("index.md")] := by
      intro he
      injection he with _ hb2
      injection hb2 with hb3 _
      exact hb hb3
    unfold resolveOutputPath
    rw [if_neg h1, if_neg h2, if_pos ⟨rfl, by simp⟩]
    rfl
  · intro sec rest hne
    cases rest with
    | nil => exact absurd rfl hne
    | cons y r => rfl
  · intro cur sec
    rfl

/-- C3 witness: the two conventions evaluated at section `posts`. -/
theorem c3_two_conventions_witness :
    resolveOutputPath [strOf ("posts"), strOf ("a.md")] = [strOf ("post"), toHtml (strOf ("a.md"))]
    ∧ (mdResolveOutputPath (strOf ("posts") :: [strOf ("a.md")])).head? = some (strOf ("posts")) :=
  ⟨c3_two_conventions.1 (strOf ("a.md")) (by decide),
   c3_two_conventions.2.1 (strOf ("posts")) [strOf ("a.md")] (by decide)⟩

/-!  Lemmas: references the rewriters leave unchanged (claim C4).  -/

theorem splitAtChar_len' {ch : Char} :
    ∀ (l a b : Str), splitAtChar ch l = some (a, b) → b.length < l.length := by
  intro l
  induction l with
  | nil => intro a b h; simp [splitAtChar] at h
  | cons x rest ih =>
    intro a b h
    by_cases hx : x = ch
    · simp [splitAtChar, hx] at h
      obtain ⟨h1, h2⟩ := h
      subst h2
      simp
    · simp only [splitAtChar, if_neg hx, Option.map_eq_some'] at h
      obtain ⟨pr, hpr, heq⟩ := h
      have := ih pr.1 pr.2 hpr
      cases heq
      simp only [List.length_cons]
      omega

theorem splitAtChar_decomp {ch : Char} :
    ∀ (l a b : Str), splitAtChar ch l = some (a, b) → a ++ ch :: b = l := by
  intro l
  induction l with
  | nil => intro a b h; simp [splitAtChar] at h
  | cons x rest ih =>
    intro a b h
    by_cases hx : x = ch
    · simp [splitAtChar, hx] at h
      obtain ⟨h1, h2⟩ := h
      subst h1
      subst h2
      simp [hx]
    · simp only [splitAtChar, if_neg hx, Option.map_eq_some'] at h
      obtain ⟨pr, hpr, heq⟩ := h
      have := ih pr.1 pr.2 hpr
      cases heq
      simp only [List.cons_append, List.cons.injEq, true_and]
      exact this

theorem convertLinksScan_id (rw : Str → Str) :
    ∀ (m : Str), hasMdHref m = false → convertLinksScan rw m = m := by
  intro m
  induction m with
  | nil => intro _; exact convertLinksScan_nil rw
  | cons c rest ih =>
    intro h
    rw [hasMdHref] at h
    rw [Bool.or_eq_false_iff] at h
    obtain ⟨h1, h2⟩ := h
    rw [convertLinksScan]
    by_cases hp : hrefOpen.isPrefixOf (c :: rest) = true
    · rw [if_pos hp]
      rw [if_pos hp] at h1
      split
      · next link after heq =>
          rw [heq] at h1
          simp only at h1
          simp only [h1, Bool.false_eq_true, if_false]
          rw [ih h2]
      · next heq => rw [ih h2]
    · rw [if_neg hp]
      rw [ih h2]

theorem imgScanAux_len :
    ∀ (l pre : Str) (r : Str × Str × Str),
      imgScanAux pre l = some r → r.2.2.length < l.length := by
  intro l
  induction l with
  | nil => intro pre r hh; simp [imgScanAux] at hh
  | cons x rest ih =>
    intro pre r hh
    by_cases hx : x = '>'
    · simp [imgScanAux, hx] at hh
    · simp only [imgScanAux, if_neg hx] at hh
      cases hdeep : imgScanAux (x :: pre) rest with
      | some r2 =>
        rw [hdeep] at hh
        have := ih (x :: pre) r2 hdeep
        cases hh
        simp only [List.length_cons]
        omega
      | none =>
        rw [hdeep] at hh
        by_cases hc : pre ≠ [] ∧ srcOpen.isPrefixOf (x :: rest)
        · simp only [if_pos hc] at hh
          cases hsp : splitAtChar '\x22' ((x :: rest).drop 5) with
          | some pr2 =>
            rw [hsp] at hh
            have := splitAtChar_len' _ _ _ hsp
            by_cases hce : pr2.1 ≠ []
            · simp only [if_pos hce] at hh
              cases hh
              simp only [List.length_drop, List.length_cons] at this ⊢
              omega
            · simp only [if_neg hce] at hh
              cases hh
          | none =>
            rw [hsp] at hh
            cases hh
        · simp only [if_neg hc] at hh
          cases hh

theorem imgScanAux_decomp :
    ∀ (l pre : Str) (mid content after : Str),
      imgScanAux pre l = some (mid, content, after) →
        mid ++ srcOpen ++ content ++ '\x22' :: after = pre.reverse ++ l := by
  intro l
  induction l with
  | nil => intro pre mid content after h; simp [imgScanAux] at h
  | cons c rest ih =>
    intro pre mid content after h
    by_cases hc : c = '>'
    · simp [imgScanAux, hc] at h
    · simp only [imgScanAux, if_neg hc] at h
      cases hdeep : imgScanAux (c :: pre) rest with
      | some r2 =>
        rw [hdeep] at h
        obtain ⟨m2, c2, a2⟩ := r2
        cases h
        have := ih (c :: pre) _ _ _ hdeep
        rw [this]
        simp
      | none =>
        rw [hdeep] at h
        by_cases hcpre : pre ≠ [] ∧ srcOpen.isPrefixOf (c :: rest)
        · simp only [if_pos hcpre] at h
          cases hsp : splitAtChar '\x22' ((c :: rest).drop 5) with
          | some pr2 =>
            rw [hsp] at h
            by_cases hce : pr2.1 ≠ []
            · simp only [if_pos hce] at h
              obtain ⟨v, w⟩ := pr2
              cases h
              have hdec : v ++ '\x22' :: w = (c :: rest).drop 5 :=
                splitAtChar_decomp _ _ _ hsp
              have hpre5 : c :: rest = srcOpen ++ (c :: rest).drop 5 := by
                obtain ⟨t, ht⟩ := (List.isPrefixOf_iff_prefix).mp hcpre.2
                have hd : ((srcOpen ++ t).drop 5 : Str) = t := List.drop_left srcOpen t
                rw [← ht, hd]
              rw [← hdec] at hpre5
              rw [show pre.reverse ++ c :: rest = pre.reverse ++ (c :: rest) from rfl, hpre5]
              simp
            · simp only [if_neg hce] at h
              cases h
          | none =>
            rw [hsp] at h
            cases h
        · simp only [if_neg hcpre] at h
          cases h

theorem rewriteAsset_skip {srcRel src : Str} (h : assetSkip src = true) :
    rewriteAsset srcRel src = src := by
  unfold rewriteAsset
  by_cases h1 : ((strOf ("http://")).isPrefixOf src = true)
      ∨ ((strOf ("https://")).isPrefixOf src = true)
      ∨ ((strOf ("/")).isPrefixOf src = true)
  · rw [if_pos h1]
  · rw [if_neg h1]
    have h0 : (stripUps src).1 = 0 := by
      simp only [assetSkip, Bool.or_eq_true, decide_eq_true_eq] at h
      rcases h with ((ha | ha) | ha) | ha
      · exact absurd (Or.inl ha) h1
      · exact absurd (Or.inr (Or.inl ha)) h1
      · exact absurd (Or.inr (Or.inr ha)) h1
      · exact ha
    simp only [h0, if_pos]

theorem allImgSrcSkip_suffix :
    ∀ (s t : Str), allImgSrcSkip (s ++ t) = true → allImgSrcSkip t = true := by
  intro s
  induction s with
  | nil => intro t h; exact h
  | cons c s' ih =>
    intro t h
    rw [show (c :: s') ++ t = c :: (s' ++ t) from rfl, allImgSrcSkip, Bool.and_eq_true] at h
    exact ih t h.2

theorem convertAssetPaths_skip_aux (srcRel : Str) :
    ∀ (n : Nat) (m : Str), m.length ≤ n → allImgSrcSkip m = true →
      convertAssetsScan (rewriteAsset srcRel) m = m := by
  intro n
  induction n with
  | zero =>
    intro m hm _
    cases m with
    | nil => simp [convertAssetsScan]
    | cons c rest => simp at hm
  | succ n ih =>
    intro m hm h
    cases m with
    | nil => simp [convertAssetsScan]
    | cons c rest =>
      rw [convertAssetsScan]
      rw [allImgSrcSkip, Bool.and_eq_true] at h
      obtain ⟨h1, h2⟩ := h
      by_cases hp : imgOpen.isPrefixOf (c :: rest) = true
      · rw [if_pos hp]
        rw [if_pos hp] at h1
        split
        · next mid content after hsp =>
            rw [hsp] at h1
            simp only at h1
            have hrw : rewriteAsset srcRel content = content := rewriteAsset_skip h1
            rw [hrw]
            have hdec := imgScanAux_decomp _ _ mid content after hsp
            simp only [List.reverse_nil, List.nil_append] at hdec
            have hpre4 : c :: rest = imgOpen ++ (c :: rest).drop 4 := by
              obtain ⟨t, ht⟩ := (List.isPrefixOf_iff_prefix).mp hp
              have hd : ((imgOpen ++ t).drop 4 : Str) = t := List.drop_left imgOpen t
              rw [← ht, hd]
            have hrest : rest = strOf ("img") ++ (c :: rest).drop 4 := by
              have h' : c :: rest = '<' :: ('i' :: 'm' :: 'g' :: (c :: rest).drop 4) := hpre4
              injection h'
            have hskipAfter : allImgSrcSkip after = true := by
              have hs1 : allImgSrcSkip ((c :: rest).drop 4) = true := by
                rw [hrest] at h2
                exact allImgSrcSkip_suffix _ _ h2
              rw [← hdec] at hs1
              rw [show mid ++ srcOpen ++ content ++ '\x22' :: after
                  = (mid ++ srcOpen ++ content ++ ['\x22']) ++ after from by simp] at hs1
              exact allImgSrcSkip_suffix _ _ hs1
            have hafter : convertAssetsScan (rewriteAsset srcRel) after = after := by
              apply ih after ?_ hskipAfter
              have hlt := imgScanAux_len _ _ _ hsp
              simp only [List.length_drop, List.length_cons] at hlt
              simp only [List.length_cons] at hm
              omega
            rw [hafter]
            conv_rhs => rw [hpre4, ← hdec]
            simp
        · next hsp =>
            simp only [List.length_cons] at hm
            rw [ih rest (by omega) h2]
      · rw [if_neg hp]
        simp only [List.length_cons] at hm
        rw [ih rest (by omega) h2]

/-- C4 counterexample: `ConvertMdLinksToHtml` has no absolute-URL
    check; an absolute https URL whose path ends in `.md` is
    rewritten (its `//` is even collapsed by `filepath.Clean`),
    contradicting the claim that rewriting never alters an
    absolute-URL target. -/
theorem c4_absolute_md_counterexample :
    mdConvertMdLinksToHtml
        (hrefOpen ++ strOf ("https://a.com/b.md") ++ ['\x22']) (strOf ("home.md"))
      = hrefOpen ++ strOf ("https:/a.com/b.html") ++ ['\x22']
    ∧ hrefOpen ++ strOf ("https:/a.com/b.html") ++ ['\x22']
      ≠ hrefOpen ++ strOf ("https://a.com/b.md") ++ ['\x22']
    ∧ convertMdLinksToHtml
        (hrefOpen ++ strOf ("https://a.com/b.md") ++ ['\x22']) (strOf ("home.md"))
      = hrefOpen ++ strOf ("https:/a.com/b.html") ++ ['\x22'] := by
  refine ⟨?_, by decide, ?_⟩
  · show convertLinksScan (rewriteLinkMd (strOf ("home.md"))) _ = _
    rw [convertLinksScan_single _ (by decide) (by decide)]
    decide
  · show convertLinksScan (rewriteLinkMain (strOf ("home.md"))) _ = _
    rw [convertLinksScan_single _ (by decide) (by decide)]
    decide

/-- C4 (amended): the Reference Rewriter leaves any markup without a
    `.md`-suffixed href target unchanged — so fragment-only
    references and absolute URLs not ending in `.md` are untouched —
    but an absolute http/https URL ending in `.md` is rewritten like
    any other `.md` target (see the counterexample).  The asset
    rewriter leaves every `img src` reference unchanged when it is
    absolute, external, or free of upward `../` traversal: both
    pointwise (the callback returns the source unchanged) and over
    whole markup whose matched sources all satisfy those
    conditions. -/
theorem c4_untouched_references :
    (∀ (m srcRel : Str), hasMdHref m = false →
        convertMdLinksToHtml m srcRel = m ∧ mdConvertMdLinksToHtml m srcRel = m)
    ∧ (∀ (srcRel src : Str), assetSkip src = true → rewriteAsset srcRel src = src)
    ∧ (∀ (m srcRel : Str), allImgSrcSkip m = true → convertAssetPaths m srcRel = m) := by
  refine ⟨?_, ?_, ?_⟩
  · intro m srcRel h
    exact ⟨convertLinksScan_id _ m h, convertLinksScan_id _ m h⟩
  · intro srcRel src h
    exact rewriteAsset_skip h
  · intro m srcRel h
    exact convertAssetPaths_skip_aux srcRel m.length m (le_refl _) h

/-- C4 witness: a fragment-only link, an absolute non-`.md` link and
    an external image source, all left unchanged. -/
theorem c4_untouched_references_witness :
    convertMdLinksToHtml (strOf ("<a href=\x22#sec\x22>x</a> <a href=\x22https://e.com\x22>y</a>"))
        (strOf ("home.md"))
      = strOf ("<a href=\x22#sec\x22>x</a> <a href=\x22https://e.com\x22>y</a>")
    ∧ rewriteAsset (strOf ("posts/a.md")) (strOf ("https://e.com/i.png"))
      = strOf ("https://e.com/i.png")
    ∧ convertAssetPaths (strOf ("<img src=\x22pic.png\x22>")) (strOf ("posts/a.md"))
      = strOf ("<img src=\x22pic.png\x22>") :=
  ⟨(c4_untouched_references.1
      (strOf ("<a href=\x22#sec\x22>x</a> <a href=\x22https://e.com\x22>y</a>"))
      (strOf ("home.md")) (by decide)).1,
   c4_untouched_references.2.1 (strOf ("posts/a.md")) (strOf ("https://e.com/i.png")) (by decide),
   c4_untouched_references.2.2 (strOf ("<img src=\x22pic.png\x22>")) (strOf ("posts/a.md"))
     (by decide)⟩

/-!  Lemmas: the navigation depth invariant (claim C5).  -/

theorem splitAux_length :
    ∀ (l : Str) (acc : Str), (splitAux acc l).length = countChar '/' l + 1 := by
  intro l
  induction l with
  | nil => intro acc; simp [splitAux, countChar]
  | cons c rest ih =>
    intro acc
    by_cases hc : c = '/'
    · simp only [splitAux, if_pos hc, List.length_cons, ih []]
      simp [countChar, hc]
    · simp only [splitAux, if_neg hc, ih (c :: acc)]
      simp [countChar, hc]

theorem relativePrefixStr_depth (cur : Str) :
    relativePrefixStr cur = repeatStr (depthOf cur) upSlash := by
  by_cases h : cur = []
  · subst h; rfl
  · unfold relativePrefixStr depthOf
    rw [if_neg h, if_neg h]
    unfold splitSlash
    rw [splitAux_length cur []]

theorem countLeadingUp_repeat :
    ∀ (d : Nat) (rest : Str),
      countLeadingUp (repeatStr d upSlash ++ rest) = d + countLeadingUp rest := by
  intro d
  induction d with
  | zero => intro rest; simp [repeatStr]
  | succ n ih =>
    intro rest
    rw [show repeatStr (n + 1) upSlash ++ rest
        = '.' :: '.' :: '/' :: (repeatStr n upSlash ++ rest) from by
      simp [repeatStr, upSlash, strOf]]
    unfold countLeadingUp at ih ⊢
    rw [stripUps]
    simp only
    rw [ih rest]
    omega

theorem stripUps_default :
    ∀ (s : Str), (¬ ∃ rest, s = '.' :: '.' :: '/' :: rest) → stripUps s = (0, s) := by
  intro s h
  unfold stripUps
  split
  · next rest => exact absurd ⟨rest, rfl⟩ h
  · rfl

theorem countLeadingUp_section_tail {s : Str} (hs : '/' ∉ s) (hne : s ≠ upSeg) :
    countLeadingUp (s ++ strOf ("/index.html")) = 0 := by
  unfold countLeadingUp
  rw [stripUps_default _ ?_]
  rintro ⟨rest, heq⟩
  match s, heq with
  | [], heq =>
    injection heq with h1 _
    exact absurd h1 (by decide)
  | [c], heq =>
    injection heq with _ h2
    injection h2 with h3 _
    exact absurd h3 (by decide)
  | [c, d], heq =>
    injection heq with hc h2
    injection h2 with hd h3
    injection h3 with h4 _
    exact hne (by rw [hc, hd]; rfl)
  | c :: d :: e :: r, heq =>
    injection heq with _ h2
    injection h2 with _ h3
    injection h3 with h4 _
    exact hs (by rw [h4]; simp)

theorem mem_joinWith_part (sep : Str) :
    ∀ (l : List Str) (x : Str), x ∈ l → List.IsInfix x (joinWith sep l) := by
  intro l
  induction l with
  | nil => intro x hx; simp at hx
  | cons y rest ih =>
    intro x hx
    cases rest with
    | nil =>
      simp only [List.mem_singleton] at hx
      subst hx
      exact List.infix_refl x
    | cons z rest' =>
      rcases List.mem_cons.mp hx with hx | hx
      · subst hx
        show List.IsInfix x (x ++ sep ++ joinWith sep (z :: rest'))
        rw [List.append_assoc]
        exact (List.prefix_append x _).isInfix
      · have h1 := ih x hx
        show List.IsInfix x (y ++ sep ++ joinWith sep (z :: rest'))
        exact h1.trans (List.suffix_append _ _).isInfix

theorem navLinks_sections :
    ∀ (sections : List Str) (pfx : Str), (∀ s ∈ sections, s ≠ []) →
      ∃ links, sections.mapM (fun s =>
          (capitalizeFirst s).map
            (fun dn => aOpenHref ++ sectionHref pfx s ++ aMid ++ dn ++ aClose)) = some links
        ∧ ∀ s ∈ sections, ∃ link ∈ links, List.IsInfix (sectionHref pfx s) link := by
  intro sections
  induction sections with
  | nil =>
    intro pfx _
    exact ⟨[], rfl, by simp⟩
  | cons s rest ih =>
    intro pfx h
    obtain ⟨links, hl, hmem⟩ := ih pfx (fun t ht => h t (List.mem_cons_of_mem _ ht))
    have hs : s ≠ [] := h s (by simp)
    obtain ⟨c, t, hct⟩ : ∃ c t, s = c :: t := by
      cases s with
      | nil => exact absurd rfl hs
      | cons c t => exact ⟨c, t, rfl⟩
    subst hct
    rw [List.mapM_cons]
    rw [show capitalizeFirst (c :: t) = some (c.toUpper :: t) from rfl]
    rw [hl]
    refine ⟨_, rfl, ?_⟩
    intro x hx
    rcases List.mem_cons.mp hx with hx | hx
    · subst hx
      refine ⟨aOpenHref ++ sectionHref pfx (c :: t) ++ aMid ++ (c.toUpper :: t) ++ aClose,
        by simp, ?_⟩
      exact ⟨aOpenHref, aMid ++ (c.toUpper :: t) ++ aClose, by simp⟩
    · obtain ⟨link, hlink, hinf⟩ := hmem x hx
      exact ⟨link, by simp [hlink], hinf⟩

/-- C5: every href of the generated navigation fragment — the home
    entry and every section entry — carries exactly `d` leading `../`
    segments, where `d` is the number of slash-separated segments of
    the current section path (0 for the root).  The section names are
    assumed slash-free and distinct from `..`, as configured section
    directory names are.  When all section names are non-empty the
    Navigation Builder succeeds and its output embeds exactly these
    hrefs. -/
theorem c5_nav_depth (sections : List Str) (cur : Str)
    (hsec : ∀ s ∈ sections, '/' ∉ s ∧ s ≠ upSeg) :
    (∀ h ∈ navHrefs sections cur, countLeadingUp h = depthOf cur)
    ∧ ((∀ s ∈ sections, s ≠ []) →
        ∃ out, navigationResolve sections cur = some out
          ∧ ∀ h ∈ navHrefs sections cur, List.IsInfix h out) := by
  constructor
  · intro h hh
    unfold navHrefs at hh
    rcases List.mem_cons.mp hh with hh | hh
    · subst hh
      unfold homeHref
      rw [relativePrefixStr_depth, countLeadingUp_repeat]
      rw [show countLeadingUp (strOf ("index.html")) = 0 from by decide]
      omega
    · obtain ⟨s, hsmem, hs⟩ := List.mem_map.mp hh
      subst hs
      unfold sectionHref
      rw [relativePrefixStr_depth]
      rw [List.append_assoc]
      rw [countLeadingUp_repeat]
      rw [countLeadingUp_section_tail (hsec s hsmem).1 (hsec s hsmem).2]
      omega
  · intro hne
    obtain ⟨links, hl, hmem⟩ := navLinks_sections sections (relativePrefixStr cur) hne
    refine ⟨strOf ("<nav class=\x22flex gap-4\x22>")
        ++ joinWith (strOf ("\n    "))
          ((aOpenHref ++ homeHref (relativePrefixStr cur) ++ aMid ++ strOf ("Accueil") ++ aClose)
            :: links)
        ++ strOf ("</nav>"), ?_, ?_⟩
    · simp only [navigationResolve, navLinks, hl, Option.map_some']
    · intro h hh
      unfold navHrefs at hh
      have hout : ∀ x, List.IsInfix x (joinWith (strOf ("\n    "))
          ((aOpenHref ++ homeHref (relativePrefixStr cur) ++ aMid ++ strOf ("Accueil") ++ aClose)
            :: links)) →
          List.IsInfix x (strOf ("<nav class=\x22flex gap-4\x22>")
            ++ joinWith (strOf ("\n    "))
              ((aOpenHref ++ homeHref (relativePrefixStr cur) ++ aMid
                ++ strOf ("Accueil") ++ aClose) :: links)
            ++ strOf ("</nav>")) := by
        intro x hx
        exact ((hx.trans (List.suffix_append _ _).isInfix).trans
          (List.prefix_append _ _).isInfix)
      rcases List.mem_cons.mp hh with hh | hh
      · subst hh
        apply hout
        have hin : List.IsInfix (homeHref (relativePrefixStr cur))
            (aOpenHref ++ homeHref (relativePrefixStr cur) ++ aMid
              ++ strOf ("Accueil") ++ aClose) :=
          ⟨aOpenHref, aMid ++ strOf ("Accueil") ++ aClose, by simp⟩
        exact hin.trans (mem_joinWith_part _ _ _ (by simp))
      · obtain ⟨s, hsmem, hs⟩ := List.mem_map.mp hh
        subst hs
        apply hout
        obtain ⟨link, hlink, hinf⟩ := hmem s hsmem
        exact hinf.trans (mem_joinWith_part _ _ _ (List.mem_cons_of_mem _ hlink))

/-- C5 witness: sections `posts`, `about` at section depth 1. -/
theorem c5_nav_depth_witness :
    (∀ h ∈ navHrefs [strOf ("posts"), strOf ("about")] (strOf ("posts")),
      countLeadingUp h = depthOf (strOf ("posts")))
    ∧ ∃ out, navigationResolve [strOf ("posts"), strOf ("about")] (strOf ("posts")) = some out
        ∧ ∀ h ∈ navHrefs [strOf ("posts"), strOf ("about")] (strOf ("posts")),
            List.IsInfix h out :=
  ⟨(c5_nav_depth [strOf ("posts"), strOf ("about")] (strOf ("posts")) (by decide)).1,
   (c5_nav_depth [strOf ("posts"), strOf ("about")] (strOf ("posts")) (by decide)).2
     (by decide)⟩

/-!  Lemmas: `strings.ReplaceAll` and the Substituter Registry
     (claims C6 and C8).  -/

theorem replaceAll_nil (pat rep : Str) : replaceAll [] pat rep = [] := by
  rw [replaceAll]

theorem replaceAll_first :
    ∀ (a p b v : Str), p ≠ [] →
      (∀ i, i < a.length → ¬ List.IsPrefix p ((a ++ p ++ b).drop i)) →
      replaceAll (a ++ p ++ b) p v = a ++ v ++ replaceAll b p v := by
  intro a
  induction a with
  | nil =>
    intro p b v hp _
    obtain ⟨q, p', hqp⟩ : ∃ q p', p = q :: p' := by
      cases p with
      | nil => exact absurd rfl hp
      | cons q p' => exact ⟨q, p', rfl⟩
    have hcons : p ++ b = q :: (p' ++ b) := by rw [hqp]; rfl
    have hpre : p.isPrefixOf (q :: (p' ++ b)) = true := by
      rw [← hcons, List.isPrefixOf_iff_prefix]
      exact List.prefix_append p b
    simp only [List.nil_append]
    rw [hcons, replaceAll]
    rw [dif_pos ⟨hp, hpre⟩]
    rw [show (q :: (p' ++ b)).drop p.length = b from by
      rw [← hcons]; exact List.drop_left p b]
  | cons x a' ih =>
    intro p b v hp hfirst
    rw [show (x :: a') ++ p ++ b = x :: (a' ++ p ++ b) from by simp]
    rw [replaceAll]
    rw [dif_neg ?_]
    · rw [ih p b v hp ?_]
      · simp
      · intro i hi
        have := hfirst (i + 1) (by simp [List.length_cons]; omega)
        simpa using this
    · rintro ⟨_, hpre⟩
      have h0 := hfirst 0 (by simp)
      simp only [List.drop_zero] at h0
      rw [List.isPrefixOf_iff_prefix] at hpre
      exact h0 (by simpa using hpre)

theorem replaceAll_absent :
    ∀ (s p v : Str), ¬ List.IsInfix p s → replaceAll s p v = s := by
  intro s
  induction s with
  | nil => intro p v _; rw [replaceAll]
  | cons c rest ih =>
    intro p v h
    rw [replaceAll]
    rw [dif_neg ?_]
    · rw [ih p v ?_]
      intro hin
      exact h (hin.trans (List.suffix_cons c rest).isInfix)
    · rintro ⟨_, hpre⟩
      rw [List.isPrefixOf_iff_prefix] at hpre
      exact h hpre.isInfix

theorem replaceAll_self (p v : Str) (hp : p ≠ []) : replaceAll p p v = v := by
  have h := replaceAll_first [] p [] v hp (by intro i hi; simp at hi)
  simp only [List.nil_append, List.append_nil] at h
  rw [h, replaceAll_nil]
  simp

/-- C6 counterexample: `main.go`'s pipeline does not fail on a source
    with no top-level heading — `extractTitle` falls back to the
    placeholder `"Untitled"` and `applySubstitutions` silently emits
    it, contradicting the claim that generation never silently emits
    a page with a placeholder title. -/
theorem c6_untitled_counterexample :
    extractTitle (strOf ("hello")) = strOf ("Untitled")
    ∧ applySubstitutions titlePlaceholder
        ⟨strOf ("hello"), strOf ("a.md"), []⟩ = strOf ("Untitled") := by
  constructor
  · decide
  · unfold applySubstitutions
    rw [show extractTitle (strOf ("hello")) = strOf ("Untitled") from by decide]
    rw [replaceAll_self _ _ (by decide)]
    rw [replaceAll_absent _ _ _ (by decide)]

/-- C6 (amended): in the registry-based generator, a converted page
    content with no `h1` heading makes the title substituter fail and
    `Registry.Apply` return an error whose message identifies the
    missing title, aborting that page's generation; however, the
    legacy `main.go` pipeline instead falls back silently to the
    placeholder title `"Untitled"` (see the counterexample). -/
theorem c6_title_failure (content template : Str) (hno : findH1 content = none) :
    titleResolve content = Except.error (strOf ("Could not find a page title"))
    ∧ registryApply defaultRegistry template content
        = Except.error (errPre ++ strOf ("Could not find a page title"))
    ∧ (∀ source : Str, tryTitleAt source = none → scanLines source = none →
        extractTitle source = strOf ("Untitled")) := by
  refine ⟨?_, ?_, ?_⟩
  · unfold titleResolve
    rw [hno]
  · show registryApply [contentSubstituter, titleSubstituter] template content = _
    simp only [registryApply, contentSubstituter, contentResolve,
      titleSubstituter, titleResolve, hno]
  · intro source h1 h2
    unfold extractTitle
    rw [h1, h2]

/-- C6 witness: a page content with no heading. -/
theorem c6_title_failure_witness :
    titleResolve (strOf ("<p>x</p>")) = Except.error (strOf ("Could not find a page title"))
    ∧ registryApply defaultRegistry (strOf ("<t>")) (strOf ("<p>x</p>"))
        = Except.error (errPre ++ strOf ("Could not find a page title")) :=
  ⟨(c6_title_failure (strOf ("<p>x</p>")) (strOf ("<t>")) (by decide)).1,
   (c6_title_failure (strOf ("<p>x</p>")) (strOf ("<t>")) (by decide)).2.1⟩

/-!  Lemmas: StyleConfig validation (claim C7).  -/

theorem joinWith_mem_infix_msg {sep : Str} {l : List Str} {x pre post : Str}
    (hx : x ∈ l) : List.IsInfix x (pre ++ joinWith sep l ++ post) :=
  ((mem_joinWith_part sep l x hx).trans
    ⟨pre, post, by simp⟩)

/-- C7: every unrecognized element-type key in a StyleConfig makes
    validation (and hence `ParseConfig` after decoding) fail with a
    message containing every offending key — as the prefixed
    `elements.key` / `contexts.name.key` entries and hence each raw
    key — and the full canonical key list; a config using only
    recognized keys validates and parses successfully. -/
theorem c7_config_validation :
    (∀ c : StyleConfig, invalidKeysOf c ≠ [] →
      ∃ msg, configValidate c = some msg
        ∧ parseConfig c = Except.error msg
        ∧ (∀ k ∈ invalidKeysOf c, List.IsInfix k msg)
        ∧ List.IsInfix (joinWith (strOf (", ")) validElementTypesList) msg
        ∧ (∀ kv ∈ c.elements, validElementType kv.1 = false → List.IsInfix kv.1 msg)
        ∧ (∀ ctx ∈ c.contexts, ∀ kv ∈ ctx.2, validElementType kv.1 = false →
            List.IsInfix kv.1 msg))
    ∧ (∀ c : StyleConfig, invalidKeysOf c = [] →
        configValidate c = none ∧ parseConfig c = Except.ok c) := by
  constructor
  · intro c hne
    refine ⟨strOf ("invalid style config keys: ")
        ++ joinWith (strOf (", ")) (invalidKeysOf c)
        ++ (strOf (". Valid keys are: ") ++ joinWith (strOf (", ")) validElementTypesList),
      ?_, ?_, ?_, ?_, ?_, ?_⟩
    · unfold configValidate
      rw [if_neg hne]
      simp [List.append_assoc]
    · unfold parseConfig configValidate
      rw [if_neg hne]
      simp [List.append_assoc]
    · intro k hk
      exact joinWith_mem_infix_msg hk
    · exact ⟨strOf ("invalid style config keys: ")
          ++ joinWith (strOf (", ")) (invalidKeysOf c) ++ strOf (". Valid keys are: "),
        [], by simp⟩
    · intro kv hkv hbad
      have hk : strOf ("elements.") ++ kv.1 ∈ invalidKeysOf c := by
        unfold invalidKeysOf
        apply List.mem_append_left
        apply List.mem_filterMap.mpr
        exact ⟨kv.1, List.mem_map_of_mem Prod.fst hkv, by rw [hbad]; rfl⟩
      have h1 : List.IsInfix kv.1 (strOf ("elements.") ++ kv.1) := ⟨strOf ("elements."), [], by simp⟩
      exact h1.trans (joinWith_mem_infix_msg hk)
    · intro ctx hctx kv hkv hbad
      have hk : strOf ("contexts.") ++ ctx.1 ++ strOf (".") ++ kv.1 ∈ invalidKeysOf c := by
        unfold invalidKeysOf
        apply List.mem_append_right
        apply List.mem_flatten.mpr
        refine ⟨(ctx.2.map Prod.fst).filterMap
          (fun k => if validElementType k then none
            else some (strOf ("contexts.") ++ ctx.1 ++ strOf (".") ++ k)), ?_, ?_⟩
        · exact List.mem_map_of_mem _ hctx
        · apply List.mem_filterMap.mpr
          exact ⟨kv.1, List.mem_map_of_mem Prod.fst hkv, by rw [hbad]; rfl⟩
      have h1 : List.IsInfix kv.1 (strOf ("contexts.") ++ ctx.1 ++ strOf (".") ++ kv.1) :=
        ⟨strOf ("contexts.") ++ ctx.1 ++ strOf ("."), [], by simp⟩
      exact h1.trans (joinWith_mem_infix_msg hk)
  · intro c hnil
    constructor
    · unfold configValidate
      rw [if_pos hnil]
    · unfold parseConfig configValidate
      rw [if_pos hnil]

/-- C7 witness: a config with the unrecognized key `h1` fails
    validation; a non-empty config with only recognized keys
    parses. -/
theorem c7_config_validation_witness :
    (configValidate ⟨[(strOf ("h1"), strOf ("big"))], []⟩).isSome = true
    ∧ parseConfig ⟨[(strOf ("heading1"), strOf ("big"))],
        [(strOf ("post"), [(strOf ("link"), strOf ("blue"))])]⟩
      = Except.ok ⟨[(strOf ("heading1"), strOf ("big"))],
        [(strOf ("post"), [(strOf ("link"), strOf ("blue"))])]⟩ := by
  constructor
  · obtain ⟨msg, hm, _⟩ := c7_config_validation.1 ⟨[(strOf ("h1"), strOf ("big"))], []⟩ (by decide)
    rw [hm]
    rfl
  · exact (c7_config_validation.2 ⟨[(strOf ("heading1"), strOf ("big"))],
      [(strOf ("post"), [(strOf ("link"), strOf ("blue"))])]⟩ (by decide)).2

/-- C8 counterexample: a registered substituter whose placeholder
    does not occur in the template is not ignored by `Apply` — its
    resolver is still invoked, so its failure fails `Apply`: the
    title substituter on a heading-less content fails `Apply` even
    though `(title)` does not occur in the template `hello`. -/
theorem c8_absent_token_counterexample :
    registryApply [titleSubstituter] (strOf ("hello")) (strOf ("x"))
      = Except.error (errPre ++ strOf ("Could not find a page title"))
    ∧ ¬ List.IsInfix titlePlaceholder (strOf ("hello")) :=
  ⟨rfl, by decide⟩

/-- C8 (amended): `Registry.Apply` resolves each registered
    substituter exactly once and replaces every occurrence of its
    placeholder, scanning left to right (first conjunct: the leftmost
    occurrence is replaced and scanning resumes after it; second:
    markup without the placeholder is unchanged).  A substituter
    whose placeholder does not occur in the template leaves the
    resulting string unchanged, but its resolver is still invoked, so
    a failing resolver fails `Apply` even then (fourth conjunct; the
    claim's "affects neither the success/failure of Apply" is
    false). -/
theorem c8_registry_apply :
    (∀ (a p b v : Str), p ≠ [] →
        (∀ i, i < a.length → ¬ List.IsPrefix p ((a ++ p ++ b).drop i)) →
        replaceAll (a ++ p ++ b) p v = a ++ v ++ replaceAll b p v)
    ∧ (∀ (s p v : Str), ¬ List.IsInfix p s → replaceAll s p v = s)
    ∧ (∀ (st : Substituter) (template content r : Str),
        st.resolve content = Except.ok r → ¬ List.IsInfix st.placeholder template →
        registryApply [st] template content = Except.ok template)
    ∧ (∀ (st : Substituter) (template content e : Str),
        st.resolve content = Except.error e →
        registryApply [st] template content = Except.error (errPre ++ e)) := by
  refine ⟨replaceAll_first, replaceAll_absent, ?_, ?_⟩
  · intro st template content r hok hni
    simp only [registryApply, hok]
    rw [replaceAll_absent _ _ _ hni]
  · intro st template content e herr
    simp only [registryApply, herr]

/-- C8 witness: one replacement at the first occurrence, a
    placeholder-free template unchanged, a succeeding substituter
    with an absent token, and a failing one. -/
theorem c8_registry_apply_witness :
    replaceAll (strOf ("ab") ++ strOf ("xy") ++ strOf ("cxy")) (strOf ("xy")) (strOf ("Z"))
      = strOf ("ab") ++ strOf ("Z") ++ replaceAll (strOf ("cxy")) (strOf ("xy")) (strOf ("Z"))
    ∧ replaceAll (strOf ("hi")) (strOf ("xy")) (strOf ("Z")) = strOf ("hi")
    ∧ registryApply [titleSubstituter] (strOf ("hi")) (strOf ("<h1>T</h1>"))
      = Except.ok (strOf ("hi"))
    ∧ registryApply [titleSubstituter] (strOf ("hi")) (strOf ("x"))
      = Except.error (errPre ++ strOf ("Could not find a page title")) :=
  ⟨c8_registry_apply.1 (strOf ("ab")) (strOf ("xy")) (strOf ("cxy")) (strOf ("Z"))
      (by decide) (by decide),
   c8_registry_apply.2.1 (strOf ("hi")) (strOf ("xy")) (strOf ("Z")) (by decide),
   c8_registry_apply.2.2.1 titleSubstituter (strOf ("hi")) (strOf ("<h1>T</h1>"))
      (strOf ("T")) rfl (by decide),
   c8_registry_apply.2.2.2 titleSubstituter (strOf ("hi")) (strOf ("x"))
      (strOf ("Could not find a page title")) rfl⟩

/-!  Lemmas: error aggregation (claim C9).  -/

theorem foldl_validate_append :
    ∀ (vs : List (Str → Str → Str → List Str)) (acc : List Str) (p d c : Str),
      vs.foldl (fun a v => a ++ v p d c) acc
        = acc ++ (vs.map (fun v => v p d c)).flatten := by
  intro vs
  induction vs with
  | nil => intro acc p d c; simp
  | cons v rest ih =>
    intro acc p d c
    simp only [List.foldl_cons, List.map_cons, List.flatten_cons]
    rw [ih]
    simp

theorem generateLoop_spec :
    ∀ (results : List (Option Str)) (errs : List Str),
      generateLoop results errs = errs ++ results.filterMap id := by
  intro results
  induction results with
  | nil => intro errs; simp [generateLoop]
  | cons r rest ih =>
    intro errs
    cases r with
    | some e =>
      simp only [generateLoop, ih, List.filterMap_cons]
      simp
    | none =>
      simp only [generateLoop, ih, List.filterMap_cons]
      simp

/-- C9: the validation registry's `Validate` aggregates every error
    of every registered validator (in order) and returns `nil`
    exactly when all of them return no error; and the orchestrator's
    per-generator loop attempts every page generator, joining all
    per-document failures instead of stopping at the first one. -/
theorem c9_error_aggregation :
    (∀ (validators : List (Str → Str → Str → List Str)) (p d c : Str),
      (registryValidate validators p d c = none ↔
        ∀ v ∈ validators, v p d c = [])
      ∧ (∀ errs, registryValidate validators p d c = some errs →
          errs = (validators.map (fun v => v p d c)).flatten))
    ∧ (∀ results : List (Option Str),
      (generatePages results = none ↔ ∀ r ∈ results, r = none)
      ∧ (∀ errs, generatePages results = some errs → errs = results.filterMap id)) := by
  constructor
  · intro validators p d c
    have hfold := foldl_validate_append validators [] p d c
    simp only [List.nil_append] at hfold
    constructor
    · unfold registryValidate
      rw [hfold]
      constructor
      · intro h v hv
        by_cases he : (validators.map (fun v => v p d c)).flatten = []
        · rw [List.flatten_eq_nil_iff] at he
          exact he _ (List.mem_map_of_mem _ hv)
        · rw [if_neg he] at h
          exact absurd h (by simp)
      · intro h
        rw [if_pos ?_]
        rw [List.flatten_eq_nil_iff]
        intro l hl
        obtain ⟨v, hv, hveq⟩ := List.mem_map.mp hl
        rw [← hveq]
        exact h v hv
    · intro errs h
      unfold registryValidate at h
      rw [hfold] at h
      by_cases he : (validators.map (fun v => v p d c)).flatten = []
      · rw [if_pos he] at h
        exact absurd h (by simp)
      · rw [if_neg he] at h
        exact (Option.some_inj.mp h).symm
  · intro results
    have hloop := generateLoop_spec results []
    simp only [List.nil_append] at hloop
    constructor
    · unfold generatePages
      rw [hloop]
      constructor
      · intro h r hr
        by_cases he : results.filterMap id = []
        · rw [List.filterMap_eq_nil_iff] at he
          cases r with
          | none => rfl
          | some e => exact absurd (he _ hr) (by simp)
        · rw [if_neg he] at h
          exact absurd h (by simp)
      · intro h
        rw [if_pos ?_]
        rw [List.filterMap_eq_nil_iff]
        intro a ha
        rw [h a ha]
        rfl
    · intro errs h
      unfold generatePages at h
      rw [hloop] at h
      by_cases he : results.filterMap id = []
      · rw [if_pos he] at h
        exact absurd h (by simp)
      · rw [if_neg he] at h
        exact (Option.some_inj.mp h).symm

/-- C9 witness: an error-free validator registry returns `nil`, and a
    run with one failing and one succeeding document reports the
    failure without stopping. -/
theorem c9_error_aggregation_witness :
    registryValidate [fun _ _ _ => []] (strOf ("p.html")) (strOf ("b")) (strOf ("c")) = none
    ∧ (generatePages [some (strOf ("e1")), none, some (strOf ("e2"))] = none ↔
        ∀ r ∈ [some (strOf ("e1")), none, some (strOf ("e2"))], r = none) :=
  ⟨((c9_error_aggregation.1 [fun _ _ _ => []] (strOf ("p.html")) (strOf ("b"))
      (strOf ("c"))).1).mpr (by intro v hv; simp at hv; subst hv; rfl),
   (c9_error_aggregation.2 [some (strOf ("e1")), none, some (strOf ("e2"))]).1⟩

/-!  Lemmas: empty section names and panics (claim C10).  -/

theorem navValidateLoop_some :
    ∀ (sections : List Str), (∀ s ∈ sections, s ≠ []) →
      ∀ (htmlPath navContent : Str) (errs : List Str),
        (navValidateLoop sections htmlPath navContent errs).isSome = true := by
  intro sections
  induction sections with
  | nil => intro _ _ _ _; rfl
  | cons sec rest ih =>
    intro h htmlPath navContent errs
    obtain ⟨c, t, hct⟩ : ∃ c t, sec = c :: t := by
      cases sec with
      | nil => exact absurd rfl (h [] (by simp))
      | cons c t => exact ⟨c, t, rfl⟩
    subst hct
    simp only [navValidateLoop, capitalizeFirst]
    exact ih (fun s hs => h s (List.mem_cons_of_mem _ hs)) htmlPath navContent _

theorem navValidateLoop_none :
    ∀ (sections : List Str), [] ∈ sections →
      ∀ (htmlPath navContent : Str) (errs : List Str),
        navValidateLoop sections htmlPath navContent errs = none := by
  intro sections
  induction sections with
  | nil => intro h; simp at h
  | cons sec rest ih =>
    intro h htmlPath navContent errs
    cases sec with
    | nil => simp [navValidateLoop, capitalizeFirst]
    | cons c t =>
      simp only [navValidateLoop, capitalizeFirst]
      apply ih ?_ htmlPath navContent
      rcases List.mem_cons.mp h with h | h
      · exact absurd h (by simp)
      · exact h

theorem navLinks_mapM_none :
    ∀ (sections : List Str) (pfx : Str), [] ∈ sections →
      sections.mapM (fun s => (capitalizeFirst s).map
        (fun dn => aOpenHref ++ sectionHref pfx s ++ aMid ++ dn ++ aClose)) = none := by
  intro sections
  induction sections with
  | nil => intro pfx h; simp at h
  | cons sec rest ih =>
    intro pfx h
    rw [List.mapM_cons]
    cases sec with
    | nil => simp [capitalizeFirst]
    | cons c t =>
      have hrest : [] ∈ rest := by
        rcases List.mem_cons.mp h with h | h
        · exact absurd h (by simp)
        · exact h
      rw [ih pfx hrest]
      simp [capitalizeFirst]

theorem navLinks_none (sections : List Str) (hmem : [] ∈ sections) (cur : Str) :
    navLinks sections cur = none := by
  simp only [navLinks, navLinks_mapM_none sections (relativePrefixStr cur) hmem,
    Option.map_none']

/-- C10 counterexample: with the empty string among the configured
    sections, the Navigation Validator does not always panic — on a
    page without any `nav` element it returns the missing-nav error
    before reaching the panicking `section[:1]` expression. -/
theorem c10_no_panic_counterexample :
    navValidate [([] : Str)] (strOf ("t.html")) (strOf ("<p>x</p>"))
      = some [strOf ("t.html") ++ strOf (": missing <nav> element")]
    ∧ navigationResolve [([] : Str)] [] = none := by
  constructor
  · rfl
  · rfl

/-- C10 (amended): for section lists of non-empty names both the
    Navigation Builder's `Resolve` and the Navigation Validator's
    `Validate` are total (the `section[:1]` slice never panics);
    a list containing the empty string always makes `Resolve` panic,
    and makes `Validate` panic exactly when the page content contains
    a `nav` element — on nav-less content `Validate` returns the
    missing-nav error before reaching the panicking expression. -/
theorem c10_empty_section_panic :
    (∀ (sections : List Str) (cur : Str), (∀ s ∈ sections, s ≠ []) →
        (navigationResolve sections cur).isSome = true)
    ∧ (∀ (sections : List Str) (htmlPath content : Str), (∀ s ∈ sections, s ≠ []) →
        (navValidate sections htmlPath content).isSome = true)
    ∧ (∀ (sections : List Str) (cur : Str), [] ∈ sections →
        navigationResolve sections cur = none)
    ∧ (∀ (sections : List Str) (htmlPath content navContent : Str),
        [] ∈ sections → findNavContent content = some navContent →
        navValidate sections htmlPath content = none) := by
  refine ⟨?_, ?_, ?_, ?_⟩
  · intro sections cur hne
    obtain ⟨links, hl, _⟩ := navLinks_sections sections (relativePrefixStr cur) hne
    simp only [navigationResolve, navLinks, hl, Option.map_some', Option.isSome_some]
  · intro sections htmlPath content hne
    unfold navValidate
    cases hf : findNavContent content with
    | none => rfl
    | some navContent =>
      exact navValidateLoop_some sections hne htmlPath navContent _
  · intro sections cur hmem
    unfold navigationResolve
    rw [navLinks_none sections hmem cur]
    rfl
  · intro sections htmlPath content navContent hmem hf
    unfold navValidate
    rw [hf]
    exact navValidateLoop_none sections hmem htmlPath navContent _

/-- C10 witness: non-empty sections are total; an empty section name
    makes `Resolve` panic and makes `Validate` panic when a `nav`
    element is present. -/
theorem c10_empty_section_panic_witness :
    (navigationResolve [strOf ("posts")] []).isSome = true
    ∧ (navValidate [strOf ("posts")] (strOf ("t")) (strOf ("x"))).isSome = true
    ∧ navigationResolve [[], strOf ("posts")] [] = none
    ∧ navValidate [([] : Str)] (strOf ("t")) (strOf ("<nav>x</nav>")) = none :=
  ⟨c10_empty_section_panic.1 [strOf ("posts")] [] (by decide),
   c10_empty_section_panic.2.1 [strOf ("posts")] (strOf ("t")) (strOf ("x")) (by decide),
   c10_empty_section_panic.2.2.1 [[], strOf ("posts")] [] (by decide),
   c10_empty_section_panic.2.2.2 [([] : Str)] (strOf ("t")) (strOf ("<nav>x</nav>"))
     (strOf ("x")) (by decide) rfl⟩
